import Mathlib

/-
Shallow embedding of the centerline-extraction and indicator code of the
3D-Vascular-Reconstruction repository.

Sources embedded here:
  - src/src/centerlinesVMTK.py : skeleton graph construction, spur pruning,
    connected-component selection, branch segment extraction, per-branch
    smoothing, grid dimension computation;
  - src/src/indicateurs.py : path length, global tortuosity, direction
    vectors, curvature, aortic arch classification;
  - src/src/calculate_Take_off_Angle.py : branch tangent vectors.

The skeleton graph is modelled in adjacency-list form over natural-number
node ids (the scripts use networkx graphs with integer nodes).  World
coordinates are rational triples where the pruning code consumes them, and
points of EuclideanSpace R (Fin 3) in the indicator engine; numpy's
float arithmetic is idealised as exact real arithmetic throughout.
-/

namespace VascRecon

/-- Undirected skeleton graph in adjacency-list form, mirroring the
networkx graph built in centerlinesVMTK.py step 6: nodes is the node list
in insertion order (iteration order of the script's loops) and adj n is
the neighbour list of n. -/
structure SGraph where
  nodes : List Nat
  adj : Nat → List Nat

/-- Degree of a node, mirroring networkx G.degree[n]. -/
def deg (G : SGraph) (n : Nat) : Nat := (G.adj n).length

/-- Well-formedness of the adjacency structure, as guaranteed by the
graph-building loop of centerlinesVMTK.py (G.add_edge inserts both
directions, a voxel is never its own neighbour, and neighbour lists have
no duplicates). -/
structure WF (G : SGraph) : Prop where
  nodes_nodup : G.nodes.Nodup
  adj_nodup : ∀ n, (G.adj n).Nodup
  no_self : ∀ n, n ∉ G.adj n
  symm : ∀ a b, b ∈ G.adj a → a ∈ G.adj b
  mem_nodes : ∀ a b, b ∈ G.adj a → a ∈ G.nodes ∧ b ∈ G.nodes

/-- Directed edge list of the graph: every ordered pair (a, b) with b a
neighbour of a.  Each undirected edge appears twice, once per direction. -/
def edgeList (G : SGraph) : List (Nat × Nat) :=
  G.nodes.flatMap fun a => (G.adj a).map fun b => (a, b)

/-- Number of undirected edges, mirroring networkx G.number_of_edges(). -/
def edgeCount (G : SGraph) : Nat := (edgeList G).length / 2

/-- Consecutive pairs of a node path (the edges traversed by a polyline). -/
def pairsOf (l : List Nat) : List (Nat × Nat) := l.zip l.tail

/-- All consecutive pairs of a list of branches. -/
def dirPairs (bs : List (List Nat)) : List (Nat × Nat) := bs.flatMap pairsOf

/-- A directed-pair list together with all its reversals. -/
def bothDirs (ps : List (Nat × Nat)) : List (Nat × Nat) := ps ++ ps.map Prod.swap

/-- One walk of the segment-extraction loop (centerlinesVMTK.py step 8):
having just consumed the directed edge prev -> cur, keep stepping through
degree-2 nodes until a key node, an already-consumed edge, or a dead end
is reached.  vis is the set visited_es of consumed directed edges; path
accumulates the segment.  fuel bounds the recursion (the source loop
terminates because every step consumes a fresh edge). -/
def segWalk (G : SGraph) : Nat → Nat → Nat → List Nat → List (Nat × Nat) →
    List Nat × List (Nat × Nat)
  | 0, _, _, path, vis => (path, vis)
  | fuel + 1, prev, cur, path, vis =>
    if deg G cur = 2 then
      match (G.adj cur).filter (fun w => w ≠ prev) with
      | [] => (path, vis)
      | nxt :: _ =>
        if (cur, nxt) ∈ vis then (path, vis)
        else segWalk G fuel cur nxt (path ++ [nxt]) ((cur, nxt) :: (nxt, cur) :: vis)
    else (path, vis)

/-- Body of the inner neighbour loop of the segment extraction: from key
node u along the edge to v, if the edge is not yet consumed, start a new
segment with path = [u, v], consume the edge in both directions, and
walk. -/
def segStep (G : SGraph) (fuel u : Nat) (st : List (List Nat) × List (Nat × Nat))
    (v : Nat) : List (List Nat) × List (Nat × Nat) :=
  if (u, v) ∈ st.2 ∨ (v, u) ∈ st.2 then st
  else
    let r := segWalk G fuel u v [u, v] ((u, v) :: (v, u) :: st.2)
    (st.1 ++ [r.1], r.2)

/-- Process one key node u of the segment-extraction loop: fold the
neighbour loop over the adjacency list of u. -/
def segFromNode (G : SGraph) (fuel : Nat) (st : List (List Nat) × List (Nat × Nat))
    (u : Nat) : List (List Nat) × List (Nat × Nat) :=
  (G.adj u).foldl (segStep G fuel u) st

/-- Full segment extraction of centerlinesVMTK.py step 8: iterate over all
key nodes (degree different from 2) and collect the segments together with
the final set of consumed directed edges. -/
def extractSegments (G : SGraph) : List (List Nat) × List (Nat × Nat) :=
  (G.nodes.filter (fun n => deg G n ≠ 2)).foldl
    (segFromNode G ((edgeList G).length + 1)) ([], [])

/-- The branch list produced by the Branch Segmenter (the variable
branches of centerlinesVMTK.py). -/
def branches (G : SGraph) : List (List Nat) := (extractSegments G).1

/-- Reachability along graph adjacency. -/
def Reach (G : SGraph) (a b : Nat) : Prop :=
  Relation.ReflTransGen (fun x y => y ∈ G.adj x) a b

/-- Structural invariant of the consumed-edge set visited_es: closed under
direction swap, contained in the edge set, and duplicate free. -/
structure VisInv (G : SGraph) (vis : List (Nat × Nat)) : Prop where
  swap : ∀ a b, (a, b) ∈ vis → (b, a) ∈ vis
  sub : ∀ a b, (a, b) ∈ vis → b ∈ G.adj a
  nodup : vis.Nodup

/-- The consumed-edge set propagates across interior nodes: a consumed
edge into a degree-2 node forces the node's other edge to be consumed. -/
def Closed (G : SGraph) (vis : List (Nat × Nat)) : Prop :=
  ∀ a b, (a, b) ∈ vis → deg G a = 2 → ∀ c ∈ G.adj a, c ≠ b → (a, c) ∈ vis

/-- Closure up to one exception at the walk frontier cur. -/
def ClosedExc (G : SGraph) (vis : List (Nat × Nat)) (cur : Nat) : Prop :=
  ∀ a b, (a, b) ∈ vis → deg G a = 2 → ∀ c ∈ G.adj a, c ≠ b → ((a, c) ∈ vis ∨ a = cur)

/-- Loop invariant of the segment extraction: the consumed-edge set is
well formed, closed, and is exactly the set of branch edges in both
directions. -/
def SegInv (G : SGraph) (st : List (List Nat) × List (Nat × Nat)) : Prop :=
  VisInv G st.2 ∧ Closed G st.2 ∧ st.2.Perm (bothDirs (dirPairs st.1))

/-! Spur pruning (centerlinesVMTK.py lines 224-290).  World coordinates of
the skeleton nodes are rational triples (x, y, z); the Euclidean distances
the source takes with np.linalg.norm are real numbers. -/

/-- World coordinates of the skeleton nodes (world(idx[n]) in the source,
with origin and spacing folded in). -/
abbrev Coords := Nat → ℚ × ℚ × ℚ

/-- Euclidean distance between two world points, as taken by
np.linalg.norm of the coordinate difference. -/
noncomputable def dist3 (p q : ℚ × ℚ × ℚ) : ℝ :=
  Real.sqrt (((q.1 - p.1 : ℚ) : ℝ) ^ 2 + ((q.2.1 - p.2.1 : ℚ) : ℝ) ^ 2 +
    ((q.2.2 - p.2.2 : ℚ) : ℝ) ^ 2)

/-- Physical length of a node path: the sum of Euclidean distances between
consecutive world coordinates (path_length_mm in the source, which is 0
for paths with at most one node). -/
noncomputable def pathLen (coords : Coords) : List Nat → ℝ
  | a :: b :: rest => dist3 (coords a) (coords b) + pathLen coords (b :: rest)
  | _ => 0

/-- Mean y world coordinate of a path (avg_y in the source, the mean of
path_coords[:, 1]). -/
def avgY (coords : Coords) (path : List Nat) : ℚ :=
  (path.map fun n => (coords n).2.1).sum / path.length

/-- The spur walk of the pruning loop (centerlinesVMTK.py lines 237-249):
while cur has degree at most 2 and is not already marked for removal,
step to the first neighbour not yet on the path; stop on dead ends and
after reaching a junction. -/
def walkSpur (G : SGraph) (marked : List Nat) : Nat → List Nat → Nat → List Nat
  | 0, path, _ => path
  | fuel + 1, path, cur =>
    if deg G cur ≤ 2 ∧ cur ∉ marked then
      match (G.adj cur).filter (fun n => n ∉ path) with
      | [] => path
      | nxt :: _ => walkSpur G marked fuel (path ++ [nxt]) nxt
    else path

open Classical in
/-- Evaluation of one leaf in the pruning loop (centerlinesVMTK.py lines
228-287): an already-marked leaf is skipped; otherwise the candidate spur
path is walked and judged by the source's three preservation criteria (the
sequential should_preserve assignments, equivalent to their disjunction:
long enough, or mean y above 0 with the relaxed threshold, or far end of
degree greater than 2).  On removal all path nodes except the last are
appended to the marked list. -/
noncomputable def processLeaf (G : SGraph) (coords : Coords) (spur : ℚ)
    (marked : List Nat) (leaf : Nat) : List Nat :=
  if leaf ∈ marked then marked
  else
    let path := walkSpur G marked (G.nodes.length + 1) [leaf] leaf
    let L := pathLen coords path
    if L > (spur : ℝ) ∨
        (1 < path.length ∧ 0 < avgY coords path ∧ L > (spur : ℝ) * 0.5) ∨
        (1 < path.length ∧ 2 < deg G (path.getLastD 0)) then
      marked
    else
      marked ++ (if 1 < path.length then path.dropLast else path)

/-- The marking pass nodes_to_remove: fold processLeaf over all degree-1
leaves in node order, starting from the empty marked list. -/
noncomputable def nodesToRemove (G : SGraph) (coords : Coords) (spur : ℚ) : List Nat :=
  (G.nodes.filter (fun n => deg G n = 1)).foldl (processLeaf G coords spur) []

/-- Batch removal G.remove_nodes_from(M): the listed nodes disappear
together with all their incident edges. -/
def removeNodes (G : SGraph) (M : List Nat) : SGraph where
  nodes := G.nodes.filter (fun n => n ∉ M)
  adj n := if n ∈ M then [] else (G.adj n).filter (fun m => m ∉ M)

/-- The pruned graph: batch removal of the marked spur nodes. -/
noncomputable def pruneGraph (G : SGraph) (coords : Coords) (spur : ℚ) : SGraph :=
  removeNodes G (nodesToRemove G coords spur)

/-- Modelled from the spec: the anatomically sensitive region is worded
there as the upper half of the bounding volume along the structure's long
axis (y), whereas the code tests mean y against the absolute plane y = 0.
A path lies in the spec's region when its mean y coordinate is above the
midpoint of the y extent of the whole structure. -/
def specSensitiveRegion (G : SGraph) (coords : Coords) (path : List Nat) : Prop :=
  let ys := G.nodes.map fun n => (coords n).2.1
  let yMin := match ys with | [] => 0 | h :: t => t.foldl min h
  let yMax := match ys with | [] => 0 | h :: t => t.foldl max h
  (yMin + yMax) / 2 < avgY coords path

/-- Modelled from the spec: the preservation criteria as the claim words
them, with the sensitive region read as the upper half of the bounding
volume; to be compared with the decision the code actually takes. -/
noncomputable def specPreserve (G : SGraph) (coords : Coords) (spur : ℚ)
    (path : List Nat) : Prop :=
  pathLen coords path > (spur : ℝ) ∨
    (specSensitiveRegion G coords path ∧ pathLen coords path > (spur : ℝ) * 0.5) ∨
    2 < deg G (path.getLastD 0)

/-! Component selection (centerlinesVMTK.py lines 292-324). -/

/-- Depth-first traversal collecting every node reachable from the stack. -/
def dfs (G : SGraph) : Nat → List Nat → List Nat → List Nat
  | 0, visited, _ => visited
  | _ + 1, visited, [] => visited
  | fuel + 1, visited, s :: stack =>
    if s ∈ visited then dfs G fuel visited stack
    else dfs G fuel (visited ++ [s]) (G.adj s ++ stack)

/-- Connected components in first-seen order, mirroring
nx.connected_components(G). -/
def connectedComponents (G : SGraph) : List (List Nat) :=
  (G.nodes.foldl (fun (acc : List (List Nat) × List Nat) n =>
    if n ∈ acc.2 then acc
    else
      let comp := dfs G ((edgeList G).length + G.nodes.length + 1) [] [n]
      (acc.1 ++ [comp], acc.2 ++ comp)) ([], [])).1

/-- Python max(components, key=len): the first component of maximal size.
The empty case is unreachable here; the caller models the ValueError that
max raises on an empty sequence. -/
def maxByLen : List (List Nat) → List Nat
  | [] => []
  | c :: cs => cs.foldl (fun best x => if best.length < x.length then x else best) c

/-- Outcome of the component-selection block.  The constructor
noStructureReport models the behaviour the specification describes (an
explicit no-structure-detected diagnostic); the code never produces it.
pyValueError models the uncaught ValueError that Python's max raises on an
empty sequence. -/
inductive SelOutcome where
  | ok (nodes : List Nat)
  | noStructureReport
  | pyValueError
  deriving DecidableEq

/-- Component selection (centerlinesVMTK.py lines 292-324): with
preserve_main_structure and more than one component, keep every component
of size at least max(0.1 * main, 50), unioned, if more than one qualifies;
otherwise keep the largest component.  The result carries the retained
node set; taking max of an empty component list is the ValueError case. -/
def componentSelect (G : SGraph) (preserveMain : Bool) : SelOutcome :=
  let comps := connectedComponents G
  if preserveMain ∧ 1 < comps.length then
    let mainSize := (comps.map List.length).foldr max 0
    let sig := comps.filter fun c => ((mainSize : ℚ) * 0.1) ⊔ 50 ≤ (c.length : ℚ)
    if 1 < sig.length then SelOutcome.ok (sig.flatMap id)
    else SelOutcome.ok (maxByLen comps)
  else
    match comps with
    | [] => SelOutcome.pyValueError
    | _ => SelOutcome.ok (maxByLen comps)

/-! Voxel grid dimensions (centerlinesVMTK.py step 2). -/

/-- Python int() truncation toward zero. -/
def pyInt (q : ℚ) : ℤ := if 0 ≤ q then ⌊q⌋ else -⌊-q⌋

/-- Per-axis grid dimension of the Voxelizer:
dims = int((bound_max - bound_min) / spacing) + 1. -/
def gridDim (lo hi s : ℚ) : ℤ := pyInt ((hi - lo) / s) + 1

/-- Modelled from the spec: the grid dimension as the spec words it,
ceil((max - min) / s) + 1; to be compared with the source's gridDim. -/
def specGridDim (lo hi s : ℚ) : ℤ := ⌈(hi - lo) / s⌉ + 1

/-! Smoothing and indicators operate on world points; numpy float vectors
are idealised as points of the Euclidean space on three real coordinates. -/

/-- World point of the smoothing and indicator code. -/
abbrev Pt := EuclideanSpace ℝ (Fin 3)

/-- One iteration of smooth_branch_coords (centerlinesVMTK.py): every
interior point is pulled toward the midpoint of its two neighbours by the
damping factor alpha, the endpoints are copied unchanged.  The source
reads neighbour values from the previous iteration's array while writing
into a copy, so the update is simultaneous. -/
noncomputable def smoothIter (l : List Pt) (α : ℝ) : List Pt :=
  l.mapIdx fun i c =>
    if 0 < i ∧ i + 1 < l.length then
      (1 - α) • c + α • ((2⁻¹ : ℝ) • (l.getD (i - 1) 0 + l.getD (i + 1) 0))
    else c

/-- smooth_branch_coords: the relaxation pass iterated. -/
noncomputable def smooth_branch_coords (l : List Pt) (iterations : Nat) (α : ℝ) :
    List Pt :=
  (fun c => smoothIter c α)^[iterations] l

/-! Indicator engine (src/src/indicateurs.py). -/

/-- calculate_path_length of indicateurs.py: sum of Euclidean distances
between consecutive points, 0 for fewer than two points. -/
noncomputable def calculate_path_length : List Pt → ℝ
  | a :: b :: rest => dist a b + calculate_path_length (b :: rest)
  | _ => 0

open Classical in
/-- The main-branch selection loop of calculate_global_tortuosity: start
from index 0 and length 0, replace on strictly greater path length, so the
first branch of maximal length wins. -/
noncomputable def mainBranchIdx (bs : List (List Pt)) : Nat :=
  (bs.enum.foldl (fun (best : Nat × ℝ) p =>
    if best.2 < calculate_path_length p.2 then (p.1, calculate_path_length p.2) else best)
    (0, 0)).1

open Classical in
/-- calculate_global_tortuosity of indicateurs.py: None when there are no
branches or when the chord between the main branch's endpoints is zero,
otherwise path length divided by the chord. -/
noncomputable def calculate_global_tortuosity (bs : List (List Pt)) : Option ℝ :=
  match bs with
  | [] => none
  | _ =>
    let main := bs.getD (mainBranchIdx bs) []
    let pl := calculate_path_length main
    let chord := dist (main.getLastD 0) (main.headD 0)
    if chord = 0 then none else some (pl / chord)

open Classical in
/-- First index of the minimum of a real list (np.argmin). -/
noncomputable def argminIdx (l : List ℝ) : Nat :=
  (l.enum.foldl (fun (best : Nat × ℝ) p => if p.2 < best.2 then p else best)
    (0, l.headD 0)).1

open Classical in
/-- get_direction_vector of indicateurs.py: locate the point of the branch
closest to the reference, take a short difference vector on the requested
side, and return it normalised; None when no suitable vector exists or the
difference has zero norm. -/
noncomputable def get_direction_vector (branch : List Pt) (ref : Pt) (fromBif : Bool) :
    Option Pt :=
  let ci := argminIdx (branch.map fun p => dist p ref)
  if fromBif then
    if ci < branch.length - 1 then
      let ei := min (ci + 5) (branch.length - 1)
      let d := branch.getD ei 0 - branch.getD ci 0
      if 0 < ‖d‖ then some (‖d‖⁻¹ • d) else none
    else none
  else
    if 0 < ci then
      let d := branch.getD ci 0 - branch.getD (ci - 5) 0
      if 0 < ‖d‖ then some (‖d‖⁻¹ • d) else none
    else none

open Classical in
/-- The tangent list of calculate_curvature_along_path: central differences
(p[i+1] - p[i-1]) / 2 at every interior point, normalised when the norm is
positive and the zero vector otherwise. -/
noncomputable def tangentsOf (pts : List Pt) : List Pt :=
  (List.range (pts.length - 2)).map fun k =>
    let t := (2⁻¹ : ℝ) • (pts.getD (k + 2) 0 - pts.getD k 0)
    if 0 < ‖t‖ then ‖t‖⁻¹ • t else 0

open Classical in
/-- calculate_curvature_along_path of indicateurs.py: curvature entries
norm(dt) / ds between consecutive tangents, with 0 whenever the arc step
ds is zero, and the empty list for fewer than three points. -/
noncomputable def calculate_curvature_along_path (pts : List Pt) : List ℝ :=
  if pts.length < 3 then []
  else
    let tangents := tangentsOf pts
    (List.range (tangents.length - 1)).map fun i =>
      let dt := tangents.getD (i + 1) 0 - tangents.getD i 0
      let ds := dist (pts.getD (i + 2) 0) (pts.getD (i + 1) 0)
      if 0 < ds then ‖dt‖ / ds else 0

/-- Least-squares slope of a value list against indices 0, 1, ..., n-1:
the closed form of the leading coefficient of the degree-1 np.polyfit used
by calculate_branch_vector. -/
noncomputable def lsqSlope (ys : List ℝ) : ℝ :=
  let n : ℝ := ys.length
  let xs : List ℝ := (List.range ys.length).map fun i => (i : ℝ)
  (n * ((xs.zip ys).map fun p => p.1 * p.2).sum - xs.sum * ys.sum) /
    (n * (xs.map fun x => x ^ 2).sum - xs.sum ^ 2)

open Classical in
/-- calculate_branch_vector of calculate_Take_off_Angle.py: tangent of a
branch around an index, from a window of up to 2 * window + 1 points; the
direct difference for two points, per-coordinate least-squares slopes
otherwise; the zero vector for degenerate windows; normalised only when
the norm is positive. -/
noncomputable def calculate_branch_vector (coords : Nat → Pt) (branchPoints : List Nat)
    (index window : Nat) : Pt :=
  let n := branchPoints.length
  let start := index - window
  let stop := min n (index + window + 1)
  if stop - start < 2 then 0
  else
    let pts := ((branchPoints.drop start).take (stop - start)).map coords
    let v : Pt :=
      if pts.length = 2 then pts.getD 1 0 - pts.getD 0 0
      else fun d => lsqSlope (pts.map fun p => p d)
    if 0 < ‖v‖ then ‖v‖⁻¹ • v else v

/-! Aortic arch classification (indicateurs.py classify_aortic_arch_type). -/

/-- The three arch classes of classify_aortic_arch_type plus the
indeterminate answer given without any bifurcation. -/
inductive ArchType where
  | typeI
  | typeII
  | typeIII
  | indeterminate
  deriving DecidableEq

/-- Minimum of the y coordinates of all branch points (all_points[:, 1].min();
junk value 0 for no points, where the source would fail on np.vstack). -/
noncomputable def yMinOf (bs : List (List Pt)) : ℝ :=
  match (bs.flatMap id).map (fun p => p 1) with
  | [] => 0
  | h :: t => t.foldl min h

/-- Maximum of the y coordinates of all branch points. -/
noncomputable def yMaxOf (bs : List (List Pt)) : ℝ :=
  match (bs.flatMap id).map (fun p => p 1) with
  | [] => 0
  | h :: t => t.foldl max h

/-- Relative height of the mean bifurcation position inside the overall y
extent: (mean(bif heights) - y_min) / (y_max - y_min). -/
noncomputable def relativeHeight (bs : List (List Pt)) (bifs : List Pt) : ℝ :=
  ((bifs.map fun p => p 1).sum / bifs.length - yMinOf bs) / (yMaxOf bs - yMinOf bs)

open Classical in
/-- classify_aortic_arch_type of indicateurs.py: with at least one
bifurcation the label follows the relative height (above 0.7 type I,
above 0.4 type II, otherwise type III) and the relative height is reported
alongside; with no bifurcation the answer is indeterminate with no
relative height. -/
noncomputable def classify_aortic_arch_type (bs : List (List Pt)) (bifs : List Pt) :
    ArchType × Option ℝ :=
  match bifs with
  | [] => (ArchType.indeterminate, none)
  | _ =>
    let rel := relativeHeight bs bifs
    if 0.7 < rel then (ArchType.typeI, some rel)
    else if 0.4 < rel then (ArchType.typeII, some rel)
    else (ArchType.typeIII, some rel)

open Classical in
/-- The label as a function of the relative height alone (the threshold
chain of classify_aortic_arch_type). -/
noncomputable def archLabel (rel : ℝ) : ArchType :=
  if 0.7 < rel then ArchType.typeI
  else if 0.4 < rel then ArchType.typeII
  else ArchType.typeIII

/-- All-ones point, used to build branches with nonzero chords. -/
noncomputable def vOne : Pt := fun _ => 1

/-! Concrete instances used by counterexamples and witnesses. -/

/-- A 3-cycle of skeleton voxels (a triangle of pairwise 26-adjacent
voxels): every node has degree 2, so the graph has no key node. -/
def triangleG : SGraph where
  nodes := [0, 1, 2]
  adj n := match n with
    | 0 => [1, 2]
    | 1 => [0, 2]
    | 2 => [0, 1]
    | _ => []

/-- A three-node path graph 0 - 1 - 2. -/
def pathG : SGraph where
  nodes := [0, 1, 2]
  adj n := match n with
    | 0 => [1]
    | 1 => [0, 2]
    | 2 => [1]
    | _ => []

/-- The same path graph with the node list in the opposite order: the same
adjacency structure, hence the same skeleton, but the pruning loop visits
the two leaves in the opposite order. -/
def pathGrev : SGraph where
  nodes := [2, 1, 0]
  adj := pathG.adj

/-- Colinear world coordinates for the path graph, all on the y axis:
node 0 at y = -3/5, node 1 at y = -1/5, node 2 at y = 2/5.  The two edges
have lengths 2/5 and 3/5, total 1. -/
def coordsC2 : Coords := fun n =>
  match n with
  | 0 => (0, -3 / 5, 0)
  | 1 => (0, -1 / 5, 0)
  | 2 => (0, 2 / 5, 0)
  | _ => (0, 0, 0)

/-- Colinear world coordinates for the path graph with every node below
the plane y = 0 but the spur inside the upper half of the structure's own
y extent: node 0 at y = -1/10, node 1 at y = -1/2, node 2 at y = -1. -/
def coordsC3 : Coords := fun n =>
  match n with
  | 0 => (0, -1 / 10, 0)
  | 1 => (0, -1 / 2, 0)
  | 2 => (0, -1, 0)
  | _ => (0, 0, 0)

/-- A two-node graph with a single short edge. -/
def k2G : SGraph where
  nodes := [0, 1]
  adj n := match n with
    | 0 => [1]
    | 1 => [0]
    | _ => []

/-- Coordinates for k2G: one edge of length 1/5 below the plane y = 0. -/
def coordsC7 : Coords := fun n =>
  match n with
  | 0 => (0, -3 / 10, 0)
  | 1 => (0, -1 / 10, 0)
  | _ => (0, 0, 0)

/-- A star with centre 0 of degree 3 (a junction) and three leaves. -/
def starG : SGraph where
  nodes := [0, 1, 2, 3]
  adj n := match n with
    | 0 => [1, 2, 3]
    | 1 => [0]
    | 2 => [0]
    | 3 => [0]
    | _ => []

/-- The graph with no nodes at all. -/
def emptyG : SGraph where
  nodes := []
  adj _ := []

/-! Claim C1: basic lemmas about the edge list and the consumed-edge set. -/

theorem mem_edgeList (G : SGraph) (a b : Nat) :
    (a, b) ∈ edgeList G ↔ a ∈ G.nodes ∧ b ∈ G.adj a := by
  unfold edgeList
  rw [List.mem_flatMap]
  constructor
  · rintro ⟨x, hx, hmem⟩
    rw [List.mem_map] at hmem
    obtain ⟨y, hy, heq⟩ := hmem
    cases heq
    exact ⟨hx, hy⟩
  · rintro ⟨ha, hb⟩
    exact ⟨a, ha, List.mem_map.mpr ⟨b, hb, rfl⟩⟩

theorem edgeList_nodup (G : SGraph) (hWF : WF G) : (edgeList G).Nodup := by
  unfold edgeList
  rw [List.nodup_flatMap]
  constructor
  · intro x _
    exact (hWF.adj_nodup x).map (fun b c h => (Prod.mk.injEq ..).mp h |>.2)
  · rw [List.pairwise_iff_forall_sublist]
    intro a b hsub
    have hne : a ≠ b := by
      intro h
      rw [h] at hsub
      have := hWF.nodes_nodup
      rw [List.nodup_iff_sublist] at this
      exact this b hsub
    intro e hea heb
    rw [List.mem_map] at hea heb
    obtain ⟨x, -, rfl⟩ := hea
    obtain ⟨y, -, heq⟩ := heb
    exact hne ((Prod.mk.injEq ..).mp heq.symm).1

theorem visInv_length_le (G : SGraph) (hWF : WF G) (vis : List (Nat × Nat))
    (hinv : VisInv G vis) : vis.length ≤ (edgeList G).length := by
  have hsub : vis ⊆ edgeList G := by
    intro e he
    obtain ⟨a, b⟩ := e
    rw [mem_edgeList]
    have hb := hinv.sub a b he
    exact ⟨(hWF.mem_nodes a b hb).1, hb⟩
  exact (List.subperm_of_subset hinv.nodup hsub).length_le

theorem two_elem_of_len_two {l : List Nat} (hnd : l.Nodup) (hlen : l.length = 2)
    {p q : Nat} (hp : p ∈ l) (hq : q ∈ l) (hne : p ≠ q) : ∀ c ∈ l, c = p ∨ c = q := by
  match l, hlen with
  | [x, y], _ =>
    intro c hc
    have hxy : x ≠ y := by
      intro h
      rw [h] at hnd
      simp at hnd
    rcases List.mem_pair.mp hp with rfl | rfl <;>
      rcases List.mem_pair.mp hq with rfl | rfl <;>
        rcases List.mem_pair.mp hc with rfl | rfl <;> tauto

theorem bothDirs_cons_perm (e : Nat × Nat) (ps : List (Nat × Nat)) :
    (bothDirs (e :: ps)).Perm (e :: e.swap :: bothDirs ps) := by
  unfold bothDirs
  rw [List.map_cons, List.cons_append]
  exact List.Perm.cons e List.perm_middle

theorem bothDirs_append_perm (ps qs : List (Nat × Nat)) :
    (bothDirs (ps ++ qs)).Perm (bothDirs ps ++ bothDirs qs) := by
  unfold bothDirs
  rw [List.map_append, ← Multiset.coe_eq_coe]
  simp only [← Multiset.coe_add]
  abel

theorem pairsOf_length (l : List Nat) : (pairsOf l).length = l.length - 1 := by
  unfold pairsOf
  rw [List.length_zip, List.length_tail]
  omega

theorem dirPairs_append_single (bs : List (List Nat)) (p : List Nat) :
    dirPairs (bs ++ [p]) = dirPairs bs ++ pairsOf p := by
  unfold dirPairs
  rw [List.flatMap_append]
  simp

theorem segWalk_spec (G : SGraph) (hWF : WF G) :
    ∀ (fuel prev cur : Nat) (path : List Nat) (vis : List (Nat × Nat)),
      (edgeList G).length + 1 ≤ fuel + vis.length →
      (prev, cur) ∈ vis → (cur, prev) ∈ vis →
      VisInv G vis → ClosedExc G vis cur →
      ∃ ext : List Nat,
        (segWalk G fuel prev cur path vis).1 = path ++ ext ∧
        (segWalk G fuel prev cur path vis).2.Perm
          (bothDirs (pairsOf (cur :: ext)) ++ vis) ∧
        VisInv G (segWalk G fuel prev cur path vis).2 ∧
        Closed G (segWalk G fuel prev cur path vis).2 := by
  intro fuel
  induction fuel with
  | zero =>
    intro prev cur path vis hfuel _ _ hinv _
    have := visInv_length_le G hWF vis hinv
    omega
  | succ n ih =>
    intro prev cur path vis hfuel hpc hcp hinv hce
    by_cases h2 : deg G cur = 2
    case neg =>
      have hstop : segWalk G (n + 1) prev cur path vis = (path, vis) := by
        rw [segWalk, if_neg h2]
      refine ⟨[], by rw [hstop]; simp, ?_, by rw [hstop]; exact hinv, ?_⟩
      · rw [hstop]
        simp [pairsOf, bothDirs]
      · rw [hstop]
        intro a b hab hdeg c hc hne
        rcases hce a b hab hdeg c hc hne with h | rfl
        · exact h
        · exact absurd hdeg h2
    case pos =>
      have hprevadj : prev ∈ G.adj cur := hinv.sub cur prev hcp
      obtain ⟨nxt, rest, hfilter⟩ :
          ∃ nxt rest, (G.adj cur).filter (fun w => w ≠ prev) = nxt :: rest := by
        cases hf : (G.adj cur).filter (fun w => w ≠ prev) with
        | nil =>
          exfalso
          rw [List.filter_eq_nil_iff] at hf
          have hlen2 : (G.adj cur).length = 2 := h2
          obtain ⟨y₁, y₂, hy⟩ : ∃ y₁ y₂, G.adj cur = [y₁, y₂] := by
            cases hadj : G.adj cur with
            | nil => rw [hadj] at hlen2; simp at hlen2
            | cons a t =>
              cases t with
              | nil => rw [hadj] at hlen2; simp at hlen2
              | cons b u =>
                cases u with
                | nil => exact ⟨a, b, rfl⟩
                | cons c w => rw [hadj] at hlen2; simp at hlen2
          have h1 : y₁ = prev := by
            have := hf y₁ (by rw [hy]; exact List.mem_cons_self _ _)
            simpa using this
          have hh2 : y₂ = prev := by
            have := hf y₂ (by rw [hy]; simp)
            simpa using this
          have hnd := hWF.adj_nodup cur
          rw [hy, h1, hh2] at hnd
          simp at hnd
        | cons nxt rest => exact ⟨nxt, rest, rfl⟩
      have hnxtfil : nxt ∈ (G.adj cur).filter (fun w => w ≠ prev) := by
        rw [hfilter]
        exact List.mem_cons_self _ _
      have hnxtmem : nxt ∈ G.adj cur := (List.mem_filter.mp hnxtfil).1
      have hnxtne : nxt ≠ prev := by simpa using (List.mem_filter.mp hnxtfil).2
      have hcurnxt : cur ≠ nxt := fun h => hWF.no_self cur (h ▸ hnxtmem)
      have htwo := two_elem_of_len_two (hWF.adj_nodup cur) h2 hprevadj hnxtmem
        (fun h => hnxtne h.symm)
      by_cases hvis : (cur, nxt) ∈ vis
      case pos =>
        have hstop : segWalk G (n + 1) prev cur path vis = (path, vis) := by
          rw [segWalk, if_pos h2, hfilter]
          dsimp only
          rw [if_pos hvis]
        refine ⟨[], by rw [hstop]; simp, ?_, by rw [hstop]; exact hinv, ?_⟩
        · rw [hstop]
          simp [pairsOf, bothDirs]
        · rw [hstop]
          intro a b hab hdeg c hc hne
          rcases hce a b hab hdeg c hc hne with h | rfl
          · exact h
          · rcases htwo c hc with rfl | rfl
            · exact hcp
            · exact hvis
      case neg =>
        have hswapvis : (nxt, cur) ∉ vis := fun h => hvis (hinv.swap _ _ h)
        have hstep : segWalk G (n + 1) prev cur path vis =
            segWalk G n cur nxt (path ++ [nxt]) ((cur, nxt) :: (nxt, cur) :: vis) := by
          rw [segWalk, if_pos h2, hfilter]
          dsimp only
          rw [if_neg hvis]
        have hinv' : VisInv G ((cur, nxt) :: (nxt, cur) :: vis) := by
          refine ⟨?_, ?_, ?_⟩
          · intro a b hab
            rcases List.mem_cons.mp hab with heq | hab'
            · injection heq with e1 e2
              subst e1; subst e2
              exact List.mem_cons_of_mem _ (List.mem_cons_self _ _)
            · rcases List.mem_cons.mp hab' with heq | hab''
              · injection heq with e1 e2
                subst e1; subst e2
                exact List.mem_cons_self _ _
              · exact List.mem_cons_of_mem _
                  (List.mem_cons_of_mem _ (hinv.swap a b hab''))
          · intro a b hab
            rcases List.mem_cons.mp hab with heq | hab'
            · injection heq with e1 e2
              subst e1; subst e2
              exact hnxtmem
            · rcases List.mem_cons.mp hab' with heq | hab''
              · injection heq with e1 e2
                subst e1; subst e2
                exact hWF.symm _ _ hnxtmem
              · exact hinv.sub a b hab''
          · rw [List.nodup_cons, List.nodup_cons]
            refine ⟨?_, hswapvis, hinv.nodup⟩
            intro h
            rcases List.mem_cons.mp h with heq | hmem
            · injection heq with e1 e2
              exact hcurnxt e1
            · exact hvis hmem
        have hce' : ClosedExc G ((cur, nxt) :: (nxt, cur) :: vis) nxt := by
          intro a b hab hdeg c hc hne
          rcases List.mem_cons.mp hab with heq | hab'
          · injection heq with e1 e2
            subst e1; subst e2
            rcases htwo c hc with rfl | rfl
            · exact Or.inl (List.mem_cons_of_mem _ (List.mem_cons_of_mem _ hcp))
            · exact absurd rfl hne
          · rcases List.mem_cons.mp hab' with heq | hab''
            · injection heq with e1 e2
              subst e1; subst e2
              exact Or.inr rfl
            · rcases hce a b hab'' hdeg c hc hne with h | rfl
              · exact Or.inl (List.mem_cons_of_mem _ (List.mem_cons_of_mem _ h))
              · rcases htwo c hc with rfl | rfl
                · exact Or.inl (List.mem_cons_of_mem _ (List.mem_cons_of_mem _ hcp))
                · exact Or.inl (List.mem_cons_self _ _)
        have hfuel' : (edgeList G).length + 1 ≤
            n + ((cur, nxt) :: (nxt, cur) :: vis).length := by
          simp only [List.length_cons]
          omega
        obtain ⟨ext, hext, hperm, hinvr, hclr⟩ :=
          ih cur nxt (path ++ [nxt]) ((cur, nxt) :: (nxt, cur) :: vis) hfuel'
            (List.mem_cons_self _ _) (List.mem_cons_of_mem _ (List.mem_cons_self _ _))
            hinv' hce'
        refine ⟨nxt :: ext, ?_, ?_, ?_, ?_⟩
        · rw [hstep, hext]
          simp
        · rw [hstep]
          refine hperm.trans ?_
          rw [show pairsOf (cur :: nxt :: ext) = (cur, nxt) :: pairsOf (nxt :: ext) from rfl,
            ← Multiset.coe_eq_coe]
          simp only [bothDirs, List.map_cons, List.cons_append, Prod.swap_prod_mk,
            ← Multiset.cons_coe, ← Multiset.coe_add, ← Multiset.singleton_add]
          abel
        · rw [hstep]
          exact hinvr
        · rw [hstep]
          exact hclr

theorem segStep_spec (G : SGraph) (hWF : WF G) (u v : Nat) (hu : u ∈ G.nodes)
    (hkey : deg G u ≠ 2) (hv : v ∈ G.adj u) (st : List (List Nat) × List (Nat × Nat))
    (hinv : SegInv G st) :
    SegInv G (segStep G ((edgeList G).length + 1) u st v) ∧
      (u, v) ∈ (segStep G ((edgeList G).length + 1) u st v).2 ∧
      (∀ e ∈ st.2, e ∈ (segStep G ((edgeList G).length + 1) u st v).2) := by
  obtain ⟨hvinv, hclosed, hperm⟩ := hinv
  unfold segStep
  by_cases hmem : (u, v) ∈ st.2 ∨ (v, u) ∈ st.2
  case pos =>
    rw [if_pos hmem]
    have huv : (u, v) ∈ st.2 := by
      rcases hmem with h | h
      · exact h
      · exact hvinv.swap _ _ h
    exact ⟨⟨hvinv, hclosed, hperm⟩, huv, fun e he => he⟩
  case neg =>
    rw [if_neg hmem]
    push_neg at hmem
    obtain ⟨huv, hvu⟩ := hmem
    have huvne : u ≠ v := fun h => hWF.no_self u (h ▸ hv)
    have hinv' : VisInv G ((u, v) :: (v, u) :: st.2) := by
      refine ⟨?_, ?_, ?_⟩
      · intro a b hab
        rcases List.mem_cons.mp hab with heq | hab'
        · injection heq with e1 e2
          subst e1; subst e2
          exact List.mem_cons_of_mem _ (List.mem_cons_self _ _)
        · rcases List.mem_cons.mp hab' with heq | hab''
          · injection heq with e1 e2
            subst e1; subst e2
            exact List.mem_cons_self _ _
          · exact List.mem_cons_of_mem _
              (List.mem_cons_of_mem _ (hvinv.swap a b hab''))
      · intro a b hab
        rcases List.mem_cons.mp hab with heq | hab'
        · injection heq with e1 e2
          subst e1; subst e2
          exact hv
        · rcases List.mem_cons.mp hab' with heq | hab''
          · injection heq with e1 e2
            subst e1; subst e2
            exact hWF.symm _ _ hv
          · exact hvinv.sub a b hab''
      · rw [List.nodup_cons, List.nodup_cons]
        refine ⟨?_, fun h => huv (hvinv.swap _ _ h), hvinv.nodup⟩
        intro h
        rcases List.mem_cons.mp h with heq | hmem'
        · injection heq with e1 e2
          exact huvne e1
        · exact huv hmem'
    have hce' : ClosedExc G ((u, v) :: (v, u) :: st.2) v := by
      intro a b hab hdeg c hc hne
      rcases List.mem_cons.mp hab with heq | hab'
      · injection heq with e1 e2
        subst e1; subst e2
        exact absurd hdeg hkey
      · rcases List.mem_cons.mp hab' with heq | hab''
        · injection heq with e1 e2
          subst e1; subst e2
          exact Or.inr rfl
        · exact Or.inl (List.mem_cons_of_mem _
            (List.mem_cons_of_mem _ (hclosed a b hab'' hdeg c hc hne)))
    have hfuel : (edgeList G).length + 1 ≤
        ((edgeList G).length + 1) + ((u, v) :: (v, u) :: st.2).length := by
      omega
    obtain ⟨ext, hext, hpermw, hinvr, hclr⟩ :=
      segWalk_spec G hWF ((edgeList G).length + 1) u v [u, v]
        ((u, v) :: (v, u) :: st.2) hfuel (List.mem_cons_self _ _)
        (List.mem_cons_of_mem _ (List.mem_cons_self _ _)) hinv' hce'
    dsimp only
    refine ⟨⟨hinvr, hclr, ?_⟩, ?_, ?_⟩
    · rw [hext, dirPairs_append_single]
      refine hpermw.trans ?_
      have h1 : pairsOf ([u, v] ++ ext) = (u, v) :: pairsOf (v :: ext) := rfl
      rw [h1]
      have hst : ((u, v) :: (v, u) :: st.2).Perm
          ((u, v) :: (v, u) :: bothDirs (dirPairs st.1)) := (hperm.cons _).cons _
      refine (List.Perm.append_left _ hst).trans ?_
      rw [← Multiset.coe_eq_coe]
      simp only [bothDirs, List.map_cons, List.map_append, List.cons_append,
        Prod.swap_prod_mk, ← Multiset.cons_coe, ← Multiset.coe_add,
        ← Multiset.singleton_add]
      abel
    · exact hpermw.mem_iff.mpr (List.mem_append_right _ (List.mem_cons_self _ _))
    · intro e he
      exact hpermw.mem_iff.mpr (List.mem_append_right _
        (List.mem_cons_of_mem _ (List.mem_cons_of_mem _ he)))

theorem segFromNode_fold_spec (G : SGraph) (hWF : WF G) (u : Nat) (hu : u ∈ G.nodes)
    (hkey : deg G u ≠ 2) :
    ∀ ws : List Nat, (∀ w ∈ ws, w ∈ G.adj u) → ∀ st, SegInv G st →
      SegInv G (ws.foldl (segStep G ((edgeList G).length + 1) u) st) ∧
        (∀ v ∈ ws, (u, v) ∈ (ws.foldl (segStep G ((edgeList G).length + 1) u) st).2) ∧
        (∀ e ∈ st.2, e ∈ (ws.foldl (segStep G ((edgeList G).length + 1) u) st).2) := by
  intro ws
  induction ws with
  | nil =>
    intro _ st hinv
    exact ⟨hinv, by simp, fun e he => he⟩
  | cons v ws' ih =>
    intro hws st hinv
    rw [List.foldl_cons]
    obtain ⟨hinv1, huv1, hmono1⟩ :=
      segStep_spec G hWF u v hu hkey (hws v (List.mem_cons_self _ _)) st hinv
    obtain ⟨hinvf, hallf, hmonof⟩ :=
      ih (fun w hw => hws w (List.mem_cons_of_mem _ hw)) _ hinv1
    refine ⟨hinvf, ?_, fun e he => hmonof e (hmono1 e he)⟩
    intro w hw
    rcases List.mem_cons.mp hw with rfl | hw'
    · exact hmonof _ huv1
    · exact hallf w hw'

theorem extractSegments_spec (G : SGraph) (hWF : WF G) :
    SegInv G (extractSegments G) ∧
      ∀ u ∈ G.nodes, deg G u ≠ 2 → ∀ v ∈ G.adj u, (u, v) ∈ (extractSegments G).2 := by
  have hgen : ∀ us : List Nat, (∀ x ∈ us, x ∈ G.nodes ∧ deg G x ≠ 2) →
      ∀ st, SegInv G st →
      SegInv G (us.foldl (segFromNode G ((edgeList G).length + 1)) st) ∧
        (∀ u ∈ us, ∀ v ∈ G.adj u,
          (u, v) ∈ (us.foldl (segFromNode G ((edgeList G).length + 1)) st).2) ∧
        (∀ e ∈ st.2, e ∈ (us.foldl (segFromNode G ((edgeList G).length + 1)) st).2) := by
    intro us
    induction us with
    | nil =>
      intro _ st h
      exact ⟨h, by simp, fun e he => he⟩
    | cons u us' ih =>
      intro hus st hinv
      rw [List.foldl_cons]
      have hu := hus u (List.mem_cons_self _ _)
      obtain ⟨hinv1, hall1, hmono1⟩ :=
        segFromNode_fold_spec G hWF u hu.1 hu.2 (G.adj u) (fun w hw => hw) st hinv
      obtain ⟨hinvf, hallf, hmonof⟩ :=
        ih (fun x hx => hus x (List.mem_cons_of_mem _ hx)) _ hinv1
      refine ⟨hinvf, ?_, fun e he => hmonof e (hmono1 e he)⟩
      intro w hw v hv
      rcases List.mem_cons.mp hw with rfl | hw'
      · exact hmonof _ (hall1 v hv)
      · exact hallf w hw' v hv
  have hinit : SegInv G (([] : List (List Nat)), ([] : List (Nat × Nat))) := by
    refine ⟨⟨?_, ?_, List.nodup_nil⟩, ?_, ?_⟩
    · intro a b h
      simp at h
    · intro a b h
      simp at h
    · intro a b h
      simp at h
    · simp [dirPairs, bothDirs]
  obtain ⟨hinv, hall, -⟩ := hgen (G.nodes.filter fun n => deg G n ≠ 2)
    (fun x hx => ⟨(List.mem_filter.mp hx).1, by
      simpa using (List.mem_filter.mp hx).2⟩) ([], []) hinit
  refine ⟨hinv, ?_⟩
  intro u hu hkey v hv
  exact hall u (List.mem_filter.mpr ⟨hu, by simpa⟩) v hv

theorem coverage (G : SGraph) (hWF : WF G) (vis : List (Nat × Nat))
    (hswap : ∀ a b, (a, b) ∈ vis → (b, a) ∈ vis)
    (hclosed : Closed G vis)
    (hkeyc : ∀ u ∈ G.nodes, deg G u ≠ 2 → ∀ v ∈ G.adj u, (u, v) ∈ vis)
    (hreach : ∀ n ∈ G.nodes, ∃ k, deg G k ≠ 2 ∧ Reach G n k) :
    ∀ a b, b ∈ G.adj a → (a, b) ∈ vis := by
  have hstep : ∀ m m', (∀ c ∈ G.adj m, (m, c) ∈ vis) → m' ∈ G.adj m →
      ∀ c ∈ G.adj m', (m', c) ∈ vis := by
    intro m m' hm hm' c hc
    by_cases hcm : c = m
    · subst hcm
      exact hswap _ _ (hm m' hm')
    · by_cases hd : deg G m' = 2
      · exact hclosed m' m (hswap _ _ (hm m' hm')) hd c hc hcm
      · exact hkeyc m' (hWF.mem_nodes m m' hm').2 hd c hc
  have hreachCN : ∀ k n, Reach G k n → (∀ c ∈ G.adj k, (k, c) ∈ vis) →
      ∀ c ∈ G.adj n, (n, c) ∈ vis := by
    intro k n hr
    unfold Reach at hr
    induction hr with
    | refl => exact fun h => h
    | tail h1 h2 ih => exact fun hk => hstep _ _ (ih hk) h2
  have hsymmReach : ∀ a k, Reach G a k → Reach G k a := by
    intro a k hr
    unfold Reach at hr ⊢
    induction hr with
    | refl => exact Relation.ReflTransGen.refl
    | tail h1 h2 ih => exact Relation.ReflTransGen.head (hWF.symm _ _ h2) ih
  have hmemReach : ∀ a k, a ∈ G.nodes → Reach G a k → k ∈ G.nodes := by
    intro a k ha hr
    unfold Reach at hr
    induction hr with
    | refl => exact ha
    | tail h1 h2 ih => exact (hWF.mem_nodes _ _ h2).2
  intro a b hb
  have ha : a ∈ G.nodes := (hWF.mem_nodes a b hb).1
  obtain ⟨k, hk, hr⟩ := hreach a ha
  have hkn : k ∈ G.nodes := hmemReach a k ha hr
  exact hreachCN k a (hsymmReach a k hr) (hkeyc k hkn hk) b hb

theorem pathG_WF : WF pathG := by
  refine ⟨by decide, ?_, ?_, ?_, ?_⟩
  · intro n
    rcases n with _ | _ | _ | n <;> simp [pathG]
  · intro n
    rcases n with _ | _ | _ | n <;> simp [pathG]
  · intro a b h
    rcases a with _ | _ | _ | a
    · simp [pathG] at h
      subst h; decide
    · simp [pathG] at h
      rcases h with rfl | rfl <;> decide
    · simp [pathG] at h
      subst h; decide
    · simp [pathG] at h
  · intro a b h
    rcases a with _ | _ | _ | a
    · simp [pathG] at h
      subst h; exact ⟨by decide, by decide⟩
    · simp [pathG] at h
      rcases h with rfl | rfl <;> exact ⟨by decide, by decide⟩
    · simp [pathG] at h
      subst h; exact ⟨by decide, by decide⟩
    · simp [pathG] at h

/-- Counterexample to C1 as stated: on a cleaned skeleton graph that is a
pure cycle (a triangle of pairwise adjacent voxels, every node of degree
2) the segment extraction finds no key node and produces no branch at
all, so the branch edges cover none of the 3 graph edges. -/
theorem c1_counterexample :
    branches triangleG = [] ∧ edgeCount triangleG = 3 ∧
      ((branches triangleG).map (fun p => p.length - 1)).sum ≠ edgeCount triangleG := by
  refine ⟨by decide, by decide, by decide⟩

/-- Claim C1 (amended): for every well-formed cleaned skeleton graph in
which every node can reach a node of degree different from 2 (no
connected component is a pure cycle), the branches produced by the
segmenter cover every edge exactly once: the branch edges taken in both
directions are a permutation of the directed edge list (hence no edge is
covered twice and none is omitted), the sum of len(branch) - 1 over all
branches equals the graph's edge count, and every consecutive branch pair
is a graph edge. -/
theorem c1_branch_edge_cover (G : SGraph) (hWF : WF G)
    (hreach : ∀ n ∈ G.nodes, ∃ k, deg G k ≠ 2 ∧ Reach G n k) :
    (bothDirs (dirPairs (branches G))).Perm (edgeList G) ∧
      ((branches G).map (fun p => p.length - 1)).sum = edgeCount G ∧
      (∀ p ∈ branches G, ∀ e ∈ pairsOf p, e.2 ∈ G.adj e.1) ∧
      (bothDirs (dirPairs (branches G))).Nodup := by
  obtain ⟨⟨hvinv, hclosed, hperm⟩, hkeyc⟩ := extractSegments_spec G hWF
  have hEsub : ∀ e ∈ edgeList G, e ∈ (extractSegments G).2 := by
    intro e he
    obtain ⟨a, b⟩ := e
    rw [mem_edgeList] at he
    exact coverage G hWF (extractSegments G).2 hvinv.swap hclosed hkeyc hreach a b he.2
  have hsubE : ∀ e ∈ (extractSegments G).2, e ∈ edgeList G := by
    intro e he
    obtain ⟨a, b⟩ := e
    rw [mem_edgeList]
    have hb := hvinv.sub a b he
    exact ⟨(hWF.mem_nodes a b hb).1, hb⟩
  have hpermE : (extractSegments G).2.Perm (edgeList G) :=
    List.Subperm.antisymm (List.subperm_of_subset hvinv.nodup hsubE)
      (List.subperm_of_subset (edgeList_nodup G hWF) hEsub)
  have hmain : (bothDirs (dirPairs (branches G))).Perm (edgeList G) :=
    hperm.symm.trans hpermE
  refine ⟨hmain, ?_, ?_, hmain.symm.nodup (edgeList_nodup G hWF)⟩
  · have hlen := hmain.length_eq
    have hlen2 : (bothDirs (dirPairs (branches G))).length =
        2 * ((branches G).map (fun p => p.length - 1)).sum := by
      unfold bothDirs
      rw [List.length_append, List.length_map]
      have hd : (dirPairs (branches G)).length =
          ((branches G).map (fun p => p.length - 1)).sum := by
        unfold dirPairs
        rw [List.length_flatMap]
        congr 1
        exact List.map_congr_left (fun p _ => pairsOf_length p)
      omega
    unfold edgeCount
    omega
  · intro p hp e he
    have hmem : e ∈ bothDirs (dirPairs (branches G)) := by
      unfold bothDirs
      refine List.mem_append_left _ ?_
      unfold dirPairs
      exact List.mem_flatMap.mpr ⟨p, hp, he⟩
    have hmemE : e ∈ edgeList G := hmain.mem_iff.mp hmem
    obtain ⟨a, b⟩ := e
    exact ((mem_edgeList G a b).mp hmemE).2

/-- Witness for c1_branch_edge_cover on the concrete three-node path
graph: the hypotheses hold (leaf 0 is a key node reachable from every
node) and the single extracted branch [0, 1, 2] covers both edges once. -/
theorem c1_branch_edge_cover_witness :
    (∀ n ∈ pathG.nodes, ∃ k, deg pathG k ≠ 2 ∧ Reach pathG n k) ∧
      ((branches pathG).map (fun p => p.length - 1)).sum = edgeCount pathG := by
  have hreach : ∀ n ∈ pathG.nodes, ∃ k, deg pathG k ≠ 2 ∧ Reach pathG n k := by
    intro n hn
    have hn' : n = 0 ∨ n = 1 ∨ n = 2 := by
      simpa [pathG] using hn
    rcases hn' with rfl | rfl | rfl
    · exact ⟨0, by decide, Relation.ReflTransGen.refl⟩
    · exact ⟨0, by decide, Relation.ReflTransGen.single (by decide)⟩
    · exact ⟨2, by decide, Relation.ReflTransGen.refl⟩
  exact ⟨hreach, (c1_branch_edge_cover pathG pathG_WF hreach).2.1⟩

/-! Helper lemmas. -/

theorem getLastD_eq_getD {α : Type} (l : List α) (d : α) :
    l.getLastD d = l.getD (l.length - 1) d := by
  induction l generalizing d with
  | nil => rfl
  | cons a t ih =>
    cases t with
    | nil => rfl
    | cons b u =>
      rw [List.getLastD_cons, ih]
      simp [List.getD]

/-! Claim C8: grid dimensions.  The source truncates the ratio with
Python's int() (floor for the nonnegative extents at hand) and then adds
one, so it allocates ceil((max-min)/s) + 1 voxels only when the spacing
divides the extent exactly; otherwise one fewer. -/

/-- Counterexample to C8 as stated: with bounds [0, 1] and spacing 2/5 the
source computes int(2.5) + 1 = 3 voxels, while ceil(2.5) + 1 = 4. -/
theorem c8_counterexample :
    gridDim 0 1 (2 / 5) = 3 ∧ specGridDim 0 1 (2 / 5) = 4 ∧
      gridDim 0 1 (2 / 5) ≠ specGridDim 0 1 (2 / 5) := by
  have h1 : gridDim 0 1 (2 / 5) = 3 := by
    unfold gridDim pyInt
    norm_num
  have h2 : specGridDim 0 1 (2 / 5) = 4 := by
    unfold specGridDim
    rw [show ((1 : ℚ) - 0) / (2 / 5) = 5 / 2 by norm_num]
    rw [show ⌈(5 / 2 : ℚ)⌉ = 3 from by rw [Int.ceil_eq_iff] <;> norm_num]
    norm_num
  exact ⟨h1, h2, by rw [h1, h2]; decide⟩

/-- Claim C8 (amended): for spacing s > 0 and bounds min <= max the grid
has floor((max-min)/s) + 1 voxels on the axis, and this equals the spec's
ceil((max-min)/s) + 1 exactly when s divides the extent. -/
theorem c8_grid_dims (lo hi s : ℚ) (hs : 0 < s) (hlh : lo ≤ hi) :
    gridDim lo hi s = ⌊(hi - lo) / s⌋ + 1 ∧
      (gridDim lo hi s = specGridDim lo hi s ↔ ∃ k : ℤ, hi - lo = k * s) := by
  have hq : (0 : ℚ) ≤ (hi - lo) / s := div_nonneg (by linarith) hs.le
  have hfloor : gridDim lo hi s = ⌊(hi - lo) / s⌋ + 1 := by
    unfold gridDim pyInt
    rw [if_pos hq]
  refine ⟨hfloor, ?_⟩
  constructor
  · intro h
    rw [hfloor] at h
    unfold specGridDim at h
    have h2 : ⌊(hi - lo) / s⌋ = ⌈(hi - lo) / s⌉ := by omega
    have hle : ((hi - lo) / s : ℚ) ≤ (⌊(hi - lo) / s⌋ : ℚ) := by
      rw [h2]; exact Int.le_ceil _
    have heq : ((hi - lo) / s : ℚ) = (⌊(hi - lo) / s⌋ : ℚ) :=
      le_antisymm hle (Int.floor_le _)
    refine ⟨⌊(hi - lo) / s⌋, ?_⟩
    have := heq
    field_simp at this
    linarith [this]
  · rintro ⟨k, hk⟩
    have hratio : (hi - lo) / s = (k : ℚ) := by
      rw [hk]; field_simp
    rw [hfloor]
    unfold specGridDim
    rw [hratio, Int.floor_intCast, Int.ceil_intCast]

/-- Witness for c8_grid_dims at bounds [0, 1] and spacing 2/5. -/
theorem c8_grid_dims_witness :
    (0 : ℚ) < 2 / 5 ∧ (0 : ℚ) ≤ 1 ∧ gridDim 0 1 (2 / 5) = ⌊((1 : ℚ) - 0) / (2 / 5)⌋ + 1 := by
  refine ⟨by norm_num, by norm_num, (c8_grid_dims 0 1 (2 / 5) (by norm_num) (by norm_num)).1⟩

/-! Claim C5: the smoothing pass fixes both endpoints. -/

theorem smoothIter_length (l : List Pt) (α : ℝ) : (smoothIter l α).length = l.length := by
  simp [smoothIter]

theorem smoothIter_getD (l : List Pt) (α : ℝ) (i : Nat) (hi : i < l.length)
    (hend : i = 0 ∨ i + 1 = l.length) : (smoothIter l α).getD i 0 = l.getD i 0 := by
  have hlen : i < (smoothIter l α).length := by rw [smoothIter_length]; exact hi
  rw [List.getD_eq_getElem _ _ hlen, List.getD_eq_getElem _ _ hi]
  unfold smoothIter
  rw [List.getElem_mapIdx]
  rcases hend with h | h
  · subst h; simp
  · have : ¬ (0 < i ∧ i + 1 < l.length) := by omega
    rw [if_neg this]

theorem smoothIter_headD (l : List Pt) (α : ℝ) :
    (smoothIter l α).headD 0 = l.headD 0 := by
  cases l with
  | nil => rfl
  | cons a t =>
    have h0 : (0 : Nat) < (a :: t).length := by simp
    have := smoothIter_getD (a :: t) α 0 h0 (Or.inl rfl)
    have hlen : (smoothIter (a :: t) α).length = (a :: t).length := smoothIter_length _ _
    cases hsm : smoothIter (a :: t) α with
    | nil => rw [hsm] at hlen; simp at hlen
    | cons b u => rw [hsm] at this; simpa using this

theorem smoothIter_getLastD (l : List Pt) (α : ℝ) :
    (smoothIter l α).getLastD 0 = l.getLastD 0 := by
  rw [getLastD_eq_getD, getLastD_eq_getD, smoothIter_length]
  cases l with
  | nil => rfl
  | cons a t =>
    have hi : (a :: t).length - 1 < (a :: t).length := by simp
    exact smoothIter_getD (a :: t) α _ hi (by right; simp)

/-- Claim C5: for every branch polyline, any iteration count and any
damping factor in [0, 1], the neighbour-relaxation smoothing returns a
polyline of the same length with the first and last points unchanged. -/
theorem c5_endpoint_invariance (l : List Pt) (iterations : Nat) (α : ℝ)
    (h0 : 0 ≤ α) (h1 : α ≤ 1) :
    (smooth_branch_coords l iterations α).length = l.length ∧
      (smooth_branch_coords l iterations α).headD 0 = l.headD 0 ∧
      (smooth_branch_coords l iterations α).getLastD 0 = l.getLastD 0 := by
  clear h0 h1
  induction iterations with
  | zero => exact ⟨rfl, rfl, rfl⟩
  | succ n ih =>
    unfold smooth_branch_coords at ih ⊢
    rw [Function.iterate_succ_apply']
    exact ⟨by rw [smoothIter_length, ih.1], by rw [smoothIter_headD, ih.2.1],
      by rw [smoothIter_getLastD, ih.2.2]⟩

/-- Witness for c5_endpoint_invariance on a concrete three-point branch
with three iterations and damping 1/2. -/
theorem c5_endpoint_invariance_witness :
    (0 : ℝ) ≤ 1 / 2 ∧ (1 / 2 : ℝ) ≤ 1 ∧
      (smooth_branch_coords [0, 0, 0] 3 (1 / 2)).headD 0 = ([0, 0, 0] : List Pt).headD 0 := by
  exact ⟨by norm_num, by norm_num,
    (c5_endpoint_invariance [0, 0, 0] 3 (1 / 2) (by norm_num) (by norm_num)).2.1⟩

/-! Claim C10: the aortic arch classification. -/

/-- Claim C10: with at least one bifurcation the classification returns a
label that is a function of the relative height alone (type I above 0.7,
type II above 0.4, type III otherwise), paired with that relative height;
it is indeterminate, with no relative height, exactly when the bifurcation
list is empty. -/
theorem c10_arch_classification (bs : List (List Pt)) (bifs : List Pt) :
    ((classify_aortic_arch_type bs bifs).1 = ArchType.indeterminate ↔ bifs = []) ∧
      ((classify_aortic_arch_type bs bifs).2 = none ↔ bifs = []) ∧
      (bifs ≠ [] →
        classify_aortic_arch_type bs bifs =
          (archLabel (relativeHeight bs bifs), some (relativeHeight bs bifs))) ∧
      (∀ r : ℝ,
        (archLabel r = ArchType.typeI ↔ 0.7 < r) ∧
          (archLabel r = ArchType.typeII ↔ 0.4 < r ∧ r ≤ 0.7) ∧
          (archLabel r = ArchType.typeIII ↔ r ≤ 0.4)) := by
  have labelFacts : ∀ r : ℝ,
      (archLabel r = ArchType.typeI ↔ 0.7 < r) ∧
        (archLabel r = ArchType.typeII ↔ 0.4 < r ∧ r ≤ 0.7) ∧
        (archLabel r = ArchType.typeIII ↔ r ≤ 0.4) := by
    intro r
    unfold archLabel
    by_cases h7 : (0.7 : ℝ) < r
    · rw [if_pos h7]
      refine ⟨by simp [h7], ?_, ?_⟩
      · simp only [reduceCtorEq, false_iff]
        rintro ⟨-, hle⟩
        linarith
      · simp only [reduceCtorEq, false_iff, not_le]
        linarith
    · rw [if_neg h7]
      by_cases h4 : (0.4 : ℝ) < r
      · rw [if_pos h4]
        refine ⟨by simp [h7], ?_, ?_⟩
        · exact ⟨fun _ => ⟨h4, le_of_not_lt h7⟩, fun _ => rfl⟩
        · simp only [reduceCtorEq, false_iff, not_le]
          linarith
      · rw [if_neg h4]
        refine ⟨by simp [not_lt.mp h7], ?_, by simpa using not_lt.mp h4⟩
        simp only [reduceCtorEq, false_iff, not_and]
        intro h
        exact absurd h h4
  cases bifs with
  | nil =>
    refine ⟨by simp [classify_aortic_arch_type], by simp [classify_aortic_arch_type],
      fun h => absurd rfl h, labelFacts⟩
  | cons b t =>
    have hmain : classify_aortic_arch_type bs (b :: t) =
        (archLabel (relativeHeight bs (b :: t)), some (relativeHeight bs (b :: t))) := by
      unfold classify_aortic_arch_type archLabel
      by_cases h7 : (0.7 : ℝ) < relativeHeight bs (b :: t)
      · simp [h7]
      · by_cases h4 : (0.4 : ℝ) < relativeHeight bs (b :: t)
        · simp [h7, h4]
        · simp [h7, h4]
    have hne : ∀ r : ℝ, archLabel r ≠ ArchType.indeterminate := by
      intro r
      unfold archLabel
      split_ifs <;> simp
    refine ⟨?_, ?_, fun _ => hmain, labelFacts⟩
    · rw [hmain]
      simpa using hne (relativeHeight bs (b :: t))
    · rw [hmain]
      simp

/-- Witness for c10_arch_classification with one bifurcation. -/
theorem c10_arch_classification_witness :
    ([(0 : Pt)] : List Pt) ≠ [] ∧
      classify_aortic_arch_type [[(0 : Pt)]] [(0 : Pt)] =
        (archLabel (relativeHeight [[(0 : Pt)]] [(0 : Pt)]),
          some (relativeHeight [[(0 : Pt)]] [(0 : Pt)])) := by
  exact ⟨by simp, (c10_arch_classification [[(0 : Pt)]] [(0 : Pt)]).2.2.1 (by simp)⟩

/-! Claim C9: zero-norm guards in angle, tangent and curvature code. -/

theorem norm_inv_smul_norm_eq_one {d : Pt} (h : 0 < ‖d‖) : ‖‖d‖⁻¹ • d‖ = 1 := by
  rw [norm_smul, norm_inv, norm_norm, inv_mul_cancel₀ (ne_of_gt h)]

/-- Claim C9: every normalisation in the indicator code is guarded by a
positive-norm test, so direction vectors are either absent (None) or unit
vectors, central-difference tangents are either the zero vector or unit
vectors, curvature entries are nonnegative (zero when the arc step is
zero), and the take-off tangent is either the zero vector or a unit
vector; no computation divides by a zero norm. -/
theorem c9_zero_norm_guards (branch : List Pt) (ref : Pt) (fromBif : Bool)
    (pts : List Pt) (coords : Nat → Pt) (bps : List Nat) (index window : Nat) :
    (get_direction_vector branch ref fromBif = none ∨
      ∃ v, get_direction_vector branch ref fromBif = some v ∧ ‖v‖ = 1) ∧
      (∀ t ∈ tangentsOf pts, t = 0 ∨ ‖t‖ = 1) ∧
      (∀ c ∈ calculate_curvature_along_path pts, 0 ≤ c) ∧
      (calculate_branch_vector coords bps index window = 0 ∨
        ‖calculate_branch_vector coords bps index window‖ = 1) := by
  refine ⟨?_, ?_, ?_, ?_⟩
  · unfold get_direction_vector
    dsimp only
    split_ifs <;>
      first
        | exact Or.inl rfl
        | exact Or.inr ⟨_, rfl, norm_inv_smul_norm_eq_one (by assumption)⟩
  · intro t ht
    unfold tangentsOf at ht
    rw [List.mem_map] at ht
    obtain ⟨k, -, rfl⟩ := ht
    dsimp only
    split_ifs with h
    · exact Or.inr (norm_inv_smul_norm_eq_one h)
    · exact Or.inl rfl
  · intro c hc
    unfold calculate_curvature_along_path at hc
    split_ifs at hc
    · exact absurd hc (List.not_mem_nil c)
    · rw [List.mem_map] at hc
      obtain ⟨i, -, rfl⟩ := hc
      dsimp only
      split_ifs with h
      · exact div_nonneg (norm_nonneg _) h.le
      · exact le_refl 0
  · unfold calculate_branch_vector
    dsimp only
    split_ifs with h1 h2 h3 h4
    · exact Or.inl rfl
    · exact Or.inr (norm_inv_smul_norm_eq_one h3)
    · exact Or.inl (norm_le_zero_iff.mp (le_of_not_lt h3))
    · exact Or.inr (norm_inv_smul_norm_eq_one h4)
    · exact Or.inl (norm_le_zero_iff.mp (le_of_not_lt h4))

/-- Witness for c9_zero_norm_guards: a degenerate four-point branch whose
tangents and curvatures are computed concretely. -/
theorem c9_zero_norm_guards_witness :
    (0 : Pt) ∈ tangentsOf [0, 0, 0, 0] ∧ ((0 : Pt) = 0 ∨ ‖(0 : Pt)‖ = 1) ∧
      (0 : ℝ) ∈ calculate_curvature_along_path [0, 0, 0, 0] ∧ (0 : ℝ) ≤ 0 := by
  have ht : (0 : Pt) ∈ tangentsOf [0, 0, 0, 0] := by
    unfold tangentsOf
    norm_num [List.range_succ]
  have hc : (0 : ℝ) ∈ calculate_curvature_along_path [0, 0, 0, 0] := by
    unfold calculate_curvature_along_path tangentsOf
    norm_num [List.range_succ]
  exact ⟨ht, (c9_zero_norm_guards [] 0 false [0, 0, 0, 0] (fun _ => 0) [] 0 0).2.1 0 ht,
    hc, (c9_zero_norm_guards [] 0 false [0, 0, 0, 0] (fun _ => 0) [] 0 0).2.2.1 0 hc⟩

/-! Claim C6: tortuosity of the main branch. -/

theorem getLastD_irrel {α : Type} : ∀ (l : List α), l ≠ [] → ∀ d₁ d₂ : α,
    l.getLastD d₁ = l.getLastD d₂
  | [], h, _, _ => absurd rfl h
  | [_], _, _, _ => rfl
  | _ :: _ :: _, _, _, _ => rfl

theorem path_length_ge_chord (l : List Pt) :
    dist (l.headD 0) (l.getLastD 0) ≤ calculate_path_length l := by
  induction l with
  | nil => simp [calculate_path_length]
  | cons a t ih =>
    cases t with
    | nil => simp [calculate_path_length]
    | cons b u =>
      rw [List.headD_cons, List.getLastD_cons]
      calc dist a ((b :: u).getLastD b)
          ≤ dist a b + dist b ((b :: u).getLastD b) := dist_triangle _ _ _
        _ ≤ dist a b + calculate_path_length (b :: u) := by
            have hfb : ∀ d : Pt, (b :: u).getLastD d = (b :: u).getLastD 0 :=
              fun d => getLastD_irrel (b :: u) (by simp) d 0
            have := ih
            rw [List.headD_cons] at this
            rw [hfb b, hfb 0] at *
            linarith [this]
        _ = calculate_path_length (a :: b :: u) := by
            rw [show calculate_path_length (a :: b :: u) =
              dist a b + calculate_path_length (b :: u) from rfl]

theorem path_length_eq_chord_straight (l : List Pt)
    (h : calculate_path_length l = dist (l.headD 0) (l.getLastD 0)) :
    ∀ x ∈ l, Wbtw ℝ (l.headD 0) x (l.getLastD 0) := by
  induction l with
  | nil => intro x hx; exact absurd hx (List.not_mem_nil x)
  | cons a t ih =>
    cases t with
    | nil =>
      intro x hx
      rcases List.mem_singleton.mp hx with rfl
      simp only [List.headD_cons, List.getLastD_cons]
      exact wbtw_self_left ℝ x x
    | cons b u =>
      have hfb : ∀ d : Pt, (b :: u).getLastD d = (b :: u).getLastD 0 :=
        fun d => getLastD_irrel (b :: u) (by simp) d 0
      rw [List.headD_cons, List.getLastD_cons, hfb a] at h
      have hstep : calculate_path_length (a :: b :: u) =
          dist a b + calculate_path_length (b :: u) := rfl
      have hub : dist b ((b :: u).getLastD 0) ≤ calculate_path_length (b :: u) := by
        have := path_length_ge_chord (b :: u)
        rwa [List.headD_cons] at this
      have hua : dist a ((b :: u).getLastD 0) ≤
          dist a b + dist b ((b :: u).getLastD 0) := dist_triangle _ _ _
      have hge : dist a ((b :: u).getLastD 0) ≤ calculate_path_length (a :: b :: u) := by
        have := path_length_ge_chord (a :: b :: u)
        rwa [List.headD_cons, List.getLastD_cons, hfb a] at this
      have heq1 : dist a b + dist b ((b :: u).getLastD 0) = dist a ((b :: u).getLastD 0) := by
        rw [hstep] at h
        linarith
      have heq2 : calculate_path_length (b :: u) = dist b ((b :: u).getLastD 0) := by
        rw [hstep] at h
        linarith
      have hwab : Wbtw ℝ a b ((b :: u).getLastD 0) := dist_add_dist_eq_iff.mp heq1
      have hrest : ∀ x ∈ b :: u, Wbtw ℝ b x ((b :: u).getLastD 0) := by
        have := ih (by rw [List.headD_cons, heq2])
        exact this
      intro x hx
      rw [List.headD_cons, List.getLastD_cons, hfb a]
      rcases List.mem_cons.mp hx with rfl | hx'
      · exact wbtw_self_left ℝ x ((b :: u).getLastD 0)
      · exact hwab.trans_right (hrest x hx')

/-- Claim C6: the computed path length of any branch dominates the chord
between its endpoints; a defined global tortuosity is at least 1; path
length equal to the chord forces every point of the branch weakly between
the endpoints (a perfectly straight branch); and a zero endpoint chord of
the selected main branch makes the global tortuosity None. -/
theorem c6_tortuosity (bs : List (List Pt)) (l : List Pt) (r : ℝ) :
    dist (l.headD 0) (l.getLastD 0) ≤ calculate_path_length l ∧
      (calculate_global_tortuosity bs = some r → 1 ≤ r) ∧
      (calculate_path_length l = dist (l.headD 0) (l.getLastD 0) →
        ∀ x ∈ l, Wbtw ℝ (l.headD 0) x (l.getLastD 0)) ∧
      (dist ((bs.getD (mainBranchIdx bs) []).getLastD 0)
          ((bs.getD (mainBranchIdx bs) []).headD 0) = 0 →
        calculate_global_tortuosity bs = none) := by
  refine ⟨path_length_ge_chord l, ?_, path_length_eq_chord_straight l, ?_⟩
  · intro hsome
    cases bs with
    | nil => exact absurd hsome (by simp [calculate_global_tortuosity])
    | cons hd tl =>
      unfold calculate_global_tortuosity at hsome
      dsimp only at hsome
      set main := (hd :: tl).getD (mainBranchIdx (hd :: tl)) [] with hmain
      by_cases hz : dist (main.getLastD 0) (main.headD 0) = 0
      · rw [if_pos hz] at hsome
        exact absurd hsome (by simp)
      · rw [if_neg hz] at hsome
        have hr : r = calculate_path_length main / dist (main.getLastD 0) (main.headD 0) := by
          exact (Option.some_injective _ hsome).symm
        have hpos : 0 < dist (main.getLastD 0) (main.headD 0) :=
          lt_of_le_of_ne dist_nonneg (Ne.symm hz)
        rw [hr, le_div_iff hpos, one_mul, dist_comm]
        exact path_length_ge_chord main
  · intro hz
    cases bs with
    | nil => simp [calculate_global_tortuosity]
    | cons hd tl =>
      unfold calculate_global_tortuosity
      dsimp only
      rw [if_pos hz]

/-- Witness for c6_tortuosity: a two-point branch from the origin to the
all-ones point has tortuosity 1, and a branch with coinciding endpoints
yields None; the straightness implication is realised on a one-point
branch. -/
theorem c6_tortuosity_witness :
    calculate_global_tortuosity [[(0 : Pt), vOne]] =
        some (dist (0 : Pt) vOne / dist vOne (0 : Pt)) ∧
      1 ≤ dist (0 : Pt) vOne / dist vOne (0 : Pt) ∧
      (calculate_path_length [(0 : Pt)] =
        dist (([(0 : Pt)] : List Pt).headD 0) (([(0 : Pt)] : List Pt).getLastD 0)) ∧
      Wbtw ℝ (([(0 : Pt)] : List Pt).headD 0) (0 : Pt) (([(0 : Pt)] : List Pt).getLastD 0) ∧
      calculate_global_tortuosity [[(0 : Pt), (0 : Pt)]] = none := by
  have hne : vOne ≠ (0 : Pt) := by
    intro h
    have h0 : vOne 0 = (0 : Pt) 0 := by rw [h]
    simp [vOne] at h0
  have hidx : mainBranchIdx [[(0 : Pt), vOne]] = 0 := by
    unfold mainBranchIdx
    rw [show List.enum [[(0 : Pt), vOne]] = [(0, [(0 : Pt), vOne])] from rfl]
    rw [List.foldl_cons, List.foldl_nil]
    dsimp only
    split_ifs <;> rfl
  have hsome : calculate_global_tortuosity [[(0 : Pt), vOne]] =
      some (dist (0 : Pt) vOne / dist vOne (0 : Pt)) := by
    simp only [calculate_global_tortuosity, hidx, List.getD_cons_zero, List.getLastD_cons,
      List.getLastD_nil, List.headD_cons]
    rw [if_neg (dist_ne_zero.mpr hne)]
    simp [calculate_path_length]
  have hchord : calculate_path_length [(0 : Pt)] =
      dist (([(0 : Pt)] : List Pt).headD 0) (([(0 : Pt)] : List Pt).getLastD 0) := by
    simp [calculate_path_length]
  refine ⟨hsome,
    (c6_tortuosity [[(0 : Pt), vOne]] [] (dist (0 : Pt) vOne / dist vOne (0 : Pt))).2.1 hsome,
    hchord, (c6_tortuosity [] [(0 : Pt)] 0).2.2.1 hchord 0 (by simp), ?_⟩
  refine (c6_tortuosity [[(0 : Pt), (0 : Pt)]] [] 0).2.2.2 ?_
  have hidx2 : mainBranchIdx [[(0 : Pt), (0 : Pt)]] = 0 := by
    unfold mainBranchIdx
    rw [show List.enum [[(0 : Pt), (0 : Pt)]] = [(0, [(0 : Pt), (0 : Pt)])] from rfl]
    rw [List.foldl_cons, List.foldl_nil]
    dsimp only
    split_ifs <;> rfl
  rw [hidx2]
  simp only [List.getD_cons_zero, List.getLastD_cons, List.getLastD_nil, List.headD_cons]
  simp

/-! Claim C7: behaviour of component selection on an empty graph. -/

theorem componentSelect_of_no_nodes (G : SGraph) (b : Bool) (h : G.nodes = []) :
    componentSelect G b = SelOutcome.pyValueError := by
  have hcc : connectedComponents G = [] := by
    unfold connectedComponents
    rw [h]
    rfl
  unfold componentSelect
  rw [hcc]
  rw [if_neg (by simp)]

/-- Claim C7 (amended): when the graph is empty after pruning, component
selection does not report a missing structure; it reaches Python's
max(components, key=len) with an empty component list, which raises an
uncaught ValueError. -/
theorem c7_empty_graph_value_error (G : SGraph) (b : Bool) (h : G.nodes = []) :
    componentSelect G b = SelOutcome.pyValueError :=
  componentSelect_of_no_nodes G b h

/-- Witness for c7_empty_graph_value_error on the literally empty graph. -/
theorem c7_empty_graph_value_error_witness :
    emptyG.nodes = [] ∧ componentSelect emptyG true = SelOutcome.pyValueError :=
  ⟨rfl, c7_empty_graph_value_error emptyG true rfl⟩

/-! Evaluation lemmas for the pruning pass on the concrete graphs; the
spur length comparisons are real-number comparisons on lengths obtained
from vertical (y-axis) segments. -/

theorem dist3_vert (a c y₁ y₂ : ℚ) :
    dist3 (a, y₁, c) (a, y₂, c) = |((y₂ : ℝ) - (y₁ : ℝ))| := by
  unfold dist3
  dsimp only
  rw [sub_self, sub_self]
  rw [show ((0 : ℚ) : ℝ) ^ 2 + ((y₂ - y₁ : ℚ) : ℝ) ^ 2 + ((0 : ℚ) : ℝ) ^ 2 =
    ((y₂ - y₁ : ℚ) : ℝ) ^ 2 by push_cast; ring]
  rw [Real.sqrt_sq_eq_abs]
  push_cast
  rfl

theorem pathLen_C2_012 : pathLen coordsC2 [0, 1, 2] = 1 := by
  simp only [pathLen]
  rw [show coordsC2 0 = ((0 : ℚ), (-3 / 5 : ℚ), (0 : ℚ)) from rfl,
    show coordsC2 1 = ((0 : ℚ), (-1 / 5 : ℚ), (0 : ℚ)) from rfl,
    show coordsC2 2 = ((0 : ℚ), (2 / 5 : ℚ), (0 : ℚ)) from rfl,
    dist3_vert, dist3_vert]
  push_cast
  norm_num
  rw [show |(2 / 5 : ℝ)| = 2 / 5 from abs_of_nonneg (by norm_num),
    show |(3 / 5 : ℝ)| = 3 / 5 from abs_of_nonneg (by norm_num)]
  norm_num

theorem pathLen_C2_01 : pathLen coordsC2 [0, 1] = 2 / 5 := by
  simp only [pathLen]
  rw [show coordsC2 0 = ((0 : ℚ), (-3 / 5 : ℚ), (0 : ℚ)) from rfl,
    show coordsC2 1 = ((0 : ℚ), (-1 / 5 : ℚ), (0 : ℚ)) from rfl, dist3_vert]
  push_cast
  norm_num

theorem pathLen_C2_21 : pathLen coordsC2 [2, 1] = 3 / 5 := by
  simp only [pathLen]
  rw [show coordsC2 2 = ((0 : ℚ), (2 / 5 : ℚ), (0 : ℚ)) from rfl,
    show coordsC2 1 = ((0 : ℚ), (-1 / 5 : ℚ), (0 : ℚ)) from rfl, dist3_vert]
  push_cast
  norm_num

theorem pathLen_C2_210 : pathLen coordsC2 [2, 1, 0] = 1 := by
  simp only [pathLen]
  rw [show coordsC2 2 = ((0 : ℚ), (2 / 5 : ℚ), (0 : ℚ)) from rfl,
    show coordsC2 1 = ((0 : ℚ), (-1 / 5 : ℚ), (0 : ℚ)) from rfl,
    show coordsC2 0 = ((0 : ℚ), (-3 / 5 : ℚ), (0 : ℚ)) from rfl,
    dist3_vert, dist3_vert]
  push_cast
  norm_num
  rw [show |(2 / 5 : ℝ)| = 2 / 5 from abs_of_nonneg (by norm_num),
    show |(3 / 5 : ℝ)| = 3 / 5 from abs_of_nonneg (by norm_num)]
  norm_num

theorem avgY_C2_012 : avgY coordsC2 [0, 1, 2] = -2 / 15 := by
  unfold avgY
  norm_num [List.sum_cons, show coordsC2 0 = ((0 : ℚ), (-3 / 5 : ℚ), (0 : ℚ)) from rfl,
    show coordsC2 1 = ((0 : ℚ), (-1 / 5 : ℚ), (0 : ℚ)) from rfl,
    show coordsC2 2 = ((0 : ℚ), (2 / 5 : ℚ), (0 : ℚ)) from rfl]

theorem avgY_C2_210 : avgY coordsC2 [2, 1, 0] = -2 / 15 := by
  unfold avgY
  norm_num [List.sum_cons, show coordsC2 0 = ((0 : ℚ), (-3 / 5 : ℚ), (0 : ℚ)) from rfl,
    show coordsC2 1 = ((0 : ℚ), (-1 / 5 : ℚ), (0 : ℚ)) from rfl,
    show coordsC2 2 = ((0 : ℚ), (2 / 5 : ℚ), (0 : ℚ)) from rfl]

theorem avgY_C2_21 : avgY coordsC2 [2, 1] = 1 / 10 := by
  unfold avgY
  norm_num [List.sum_cons, show coordsC2 1 = ((0 : ℚ), (-1 / 5 : ℚ), (0 : ℚ)) from rfl,
    show coordsC2 2 = ((0 : ℚ), (2 / 5 : ℚ), (0 : ℚ)) from rfl]

theorem avgY_C2_01 : avgY coordsC2 [0, 1] = -2 / 5 := by
  unfold avgY
  norm_num [List.sum_cons, show coordsC2 0 = ((0 : ℚ), (-3 / 5 : ℚ), (0 : ℚ)) from rfl,
    show coordsC2 1 = ((0 : ℚ), (-1 / 5 : ℚ), (0 : ℚ)) from rfl]

theorem processLeaf_C2_leaf0 : processLeaf pathG coordsC2 1 [] 0 = [0, 1] := by
  have hwalk : walkSpur pathG [] (pathG.nodes.length + 1) [0] 0 = [0, 1, 2] := by decide
  unfold processLeaf
  rw [if_neg (List.not_mem_nil 0)]
  dsimp only
  rw [hwalk, pathLen_C2_012, avgY_C2_012]
  rw [if_neg (by
    rintro (h | ⟨-, h, -⟩ | ⟨-, h⟩)
    · norm_num at h
    · norm_num at h
    · revert h; decide)]
  decide

theorem processLeaf_C2_leaf2_after : processLeaf pathG coordsC2 1 [0, 1] 2 = [0, 1] := by
  have hwalk : walkSpur pathG [0, 1] (pathG.nodes.length + 1) [2] 2 = [2, 1] := by decide
  unfold processLeaf
  rw [if_neg (by decide)]
  dsimp only
  rw [hwalk, pathLen_C2_21, avgY_C2_21]
  rw [if_pos (Or.inr (Or.inl ⟨by decide, by norm_num, by push_cast; norm_num⟩))]

theorem processLeaf_C2_leaf2_fresh : processLeaf pathG coordsC2 1 [] 2 = [2, 1] := by
  have hwalk : walkSpur pathG [] (pathG.nodes.length + 1) [2] 2 = [2, 1, 0] := by decide
  unfold processLeaf
  rw [if_neg (List.not_mem_nil 2)]
  dsimp only
  rw [hwalk, pathLen_C2_210, avgY_C2_210]
  rw [if_neg (by
    rintro (h | ⟨-, h, -⟩ | ⟨-, h⟩)
    · norm_num at h
    · norm_num at h
    · revert h; decide)]
  decide

theorem processLeaf_rev_leaf2 : processLeaf pathGrev coordsC2 1 [] 2 = [2, 1] := by
  have hwalk : walkSpur pathGrev [] (pathGrev.nodes.length + 1) [2] 2 = [2, 1, 0] := by decide
  unfold processLeaf
  rw [if_neg (List.not_mem_nil 2)]
  dsimp only
  rw [hwalk, pathLen_C2_210, avgY_C2_210]
  rw [if_neg (by
    rintro (h | ⟨-, h, -⟩ | ⟨-, h⟩)
    · norm_num at h
    · norm_num at h
    · revert h; decide)]
  decide

theorem processLeaf_rev_leaf0 : processLeaf pathGrev coordsC2 1 [2, 1] 0 = [2, 1, 0] := by
  have hwalk : walkSpur pathGrev [2, 1] (pathGrev.nodes.length + 1) [0] 0 = [0, 1] := by decide
  unfold processLeaf
  rw [if_neg (by decide)]
  dsimp only
  rw [hwalk, pathLen_C2_01, avgY_C2_01]
  rw [if_neg (by
    rintro (h | ⟨-, h, -⟩ | ⟨-, h⟩)
    · norm_num at h
    · norm_num at h
    · revert h; decide)]
  decide

theorem nodesToRemove_pathG : nodesToRemove pathG coordsC2 1 = [0, 1] := by
  unfold nodesToRemove
  rw [show pathG.nodes.filter (fun n => deg pathG n = 1) = [0, 2] from by decide]
  rw [List.foldl_cons]
  rw [processLeaf_C2_leaf0]
  rw [List.foldl_cons, List.foldl_nil]
  rw [processLeaf_C2_leaf2_after]

theorem nodesToRemove_pathGrev : nodesToRemove pathGrev coordsC2 1 = [2, 1, 0] := by
  unfold nodesToRemove
  rw [show pathGrev.nodes.filter (fun n => deg pathGrev n = 1) = [2, 0] from by decide]
  rw [List.foldl_cons]
  rw [processLeaf_rev_leaf2]
  rw [List.foldl_cons, List.foldl_nil]
  rw [processLeaf_rev_leaf0]

theorem dist3_vert_anti (a c y₁ y₂ : ℚ) (h : y₂ ≤ y₁) :
    dist3 (a, y₁, c) (a, y₂, c) = ((y₁ - y₂ : ℚ) : ℝ) := by
  rw [dist3_vert]
  rw [show (y₂ : ℝ) - (y₁ : ℝ) = -((y₁ : ℝ) - (y₂ : ℝ)) by ring, abs_neg]
  rw [abs_of_nonneg (by
    have : (y₂ : ℝ) ≤ (y₁ : ℝ) := by exact_mod_cast h
    linarith)]
  push_cast
  ring

theorem pathLen_C3_012 : pathLen coordsC3 [0, 1, 2] = 9 / 10 := by
  simp only [pathLen]
  rw [show coordsC3 0 = ((0 : ℚ), (-1 / 10 : ℚ), (0 : ℚ)) from rfl,
    show coordsC3 1 = ((0 : ℚ), (-1 / 2 : ℚ), (0 : ℚ)) from rfl,
    show coordsC3 2 = ((0 : ℚ), (-1 : ℚ), (0 : ℚ)) from rfl]
  rw [dist3_vert_anti 0 0 (-1 / 10) (-1 / 2) (by norm_num),
    dist3_vert_anti 0 0 (-1 / 2) (-1) (by norm_num)]
  push_cast
  norm_num

theorem avgY_C3_012 : avgY coordsC3 [0, 1, 2] = -8 / 15 := by
  unfold avgY
  norm_num [List.sum_cons, show coordsC3 0 = ((0 : ℚ), (-1 / 10 : ℚ), (0 : ℚ)) from rfl,
    show coordsC3 1 = ((0 : ℚ), (-1 / 2 : ℚ), (0 : ℚ)) from rfl,
    show coordsC3 2 = ((0 : ℚ), (-1 : ℚ), (0 : ℚ)) from rfl]

theorem processLeaf_C3_leaf0 : processLeaf pathG coordsC3 1 [] 0 = [0, 1] := by
  have hwalk : walkSpur pathG [] (pathG.nodes.length + 1) [0] 0 = [0, 1, 2] := by decide
  unfold processLeaf
  rw [if_neg (List.not_mem_nil 0)]
  dsimp only
  rw [hwalk, pathLen_C3_012, avgY_C3_012]
  rw [if_neg (by
    rintro (h | ⟨-, h, -⟩ | ⟨-, h⟩)
    · norm_num at h
    · norm_num at h
    · revert h; decide)]
  decide

/-! Claim C2: batch removal and order dependence of the pruning pass. -/

/-- Counterexample to C2 as stated: on the same skeleton (identical
adjacency, node list reversed) the pruning loop produces different marked
sets, and the decision for leaf 2 flips with the already-marked nodes: on
the fresh pre-pruning state its spur is removed (nodes 2 and 1 marked),
while after leaf 0 has been processed its walk stops at the marked node 1
and the truncated spur is preserved. -/
theorem c2_counterexample :
    pathG.adj = pathGrev.adj ∧
      pathG.nodes.Perm pathGrev.nodes ∧
      nodesToRemove pathG coordsC2 1 ≠ nodesToRemove pathGrev coordsC2 1 ∧
      processLeaf pathG coordsC2 1 [] 2 = [2, 1] ∧
      processLeaf pathG coordsC2 1 [0, 1] 2 = [0, 1] := by
  refine ⟨rfl, by decide, ?_, processLeaf_C2_leaf2_fresh, processLeaf_C2_leaf2_after⟩
  rw [nodesToRemove_pathG, nodesToRemove_pathGrev]
  decide

theorem processLeaf_mono (G : SGraph) (coords : Coords) (spur : ℚ)
    (marked : List Nat) (leaf : Nat) : marked ⊆ processLeaf G coords spur marked leaf := by
  unfold processLeaf
  dsimp only
  split_ifs
  all_goals first
    | exact fun a ha => ha
    | exact List.subset_append_left _ _

/-- Claim C2 (amended): all degree and adjacency queries of the pruning
pass read the fixed pre-pruning graph, the marked set only grows while
leaves are processed, and removal happens exactly once as a single batch
(the pruned graph is G minus the final marked set, nodes and incident
edges).  However a marked leaf is skipped and a walk stops at marked
nodes, so a leaf's candidate path and decision may depend on the order in
which earlier leaves were processed. -/
theorem c2_batch_removal (G : SGraph) (coords : Coords) (spur : ℚ) :
    (pruneGraph G coords spur).nodes =
        G.nodes.filter (fun n => n ∉ nodesToRemove G coords spur) ∧
      (∀ n, (pruneGraph G coords spur).adj n =
        if n ∈ nodesToRemove G coords spur then []
        else (G.adj n).filter (fun m => m ∉ nodesToRemove G coords spur)) ∧
      (∀ marked leaf, marked ⊆ processLeaf G coords spur marked leaf) ∧
      (∀ (leaves : List Nat) (marked : List Nat),
        marked ⊆ leaves.foldl (processLeaf G coords spur) marked) := by
  refine ⟨rfl, fun n => rfl, processLeaf_mono G coords spur, ?_⟩
  intro leaves
  induction leaves with
  | nil => intro marked; exact fun a ha => ha
  | cons l ls ih =>
    intro marked
    rw [List.foldl_cons]
    exact fun a ha => ih (processLeaf G coords spur marked l) (processLeaf_mono _ _ _ _ _ ha)

/-- Witness for c2_batch_removal: the growth property applied on a
concrete marked list. -/
theorem c2_batch_removal_witness :
    (0 : Nat) ∈ [0] ∧ (0 : Nat) ∈ processLeaf pathG coordsC2 1 [0] 5 :=
  ⟨by decide, (c2_batch_removal pathG coordsC2 1).2.2.1 [0] 5 (by decide)⟩

/-! Claim C4: pruning monotonicity. -/

theorem walkSpur_extension (G : SGraph) (marked : List Nat) :
    ∀ (fuel : Nat) (path : List Nat) (cur : Nat),
      ∃ ext, walkSpur G marked fuel path cur = path ++ ext := by
  intro fuel
  induction fuel with
  | zero => intro path cur; exact ⟨[], by simp [walkSpur]⟩
  | succ n ih =>
    intro path cur
    unfold walkSpur
    split_ifs with hg
    · cases hf : (G.adj cur).filter (fun n => n ∉ path) with
      | nil => exact ⟨[], by simp⟩
      | cons nxt rest =>
        obtain ⟨ext, hext⟩ := ih (path ++ [nxt]) nxt
        refine ⟨nxt :: ext, ?_⟩
        show walkSpur G marked n (path ++ [nxt]) nxt = path ++ nxt :: ext
        rw [hext]
        simp
    · exact ⟨[], by simp⟩

theorem walkSpur_dropLast_deg (G : SGraph) (marked : List Nat) :
    ∀ (fuel : Nat) (path : List Nat) (cur : Nat),
      (∀ x ∈ path.dropLast, deg G x ≤ 2) → path.getLast? = some cur →
      ∀ x ∈ (walkSpur G marked fuel path cur).dropLast, deg G x ≤ 2 := by
  intro fuel
  induction fuel with
  | zero => intro path cur hdrop _; simpa [walkSpur] using hdrop
  | succ n ih =>
    intro path cur hdrop hlast
    unfold walkSpur
    split_ifs with hg
    · cases hf : (G.adj cur).filter (fun n => n ∉ path) with
      | nil => simpa using hdrop
      | cons nxt rest =>
        refine ih (path ++ [nxt]) nxt ?_ (by simp)
        rw [List.dropLast_concat]
        intro x hx
        have hsplit : path = path.dropLast ++ [cur] := by
          have h1 : path ≠ [] := by
            intro hnil
            rw [hnil] at hlast
            exact absurd hlast (by simp)
          have h2 : path.getLast h1 = cur := by
            rw [List.getLast?_eq_getLast path h1] at hlast
            exact Option.some_injective _ hlast
          rw [← h2]
          exact (List.dropLast_append_getLast h1).symm
        rw [hsplit] at hx
        rcases List.mem_append.mp hx with hx' | hx'
        · exact hdrop x hx'
        · rw [List.mem_singleton.mp hx']
          exact hg.1
    · simpa using hdrop

theorem processLeaf_deg_le (G : SGraph) (coords : Coords) (spur : ℚ)
    (marked : List Nat) (leaf : Nat) (hm : ∀ x ∈ marked, deg G x ≤ 2)
    (hleaf : deg G leaf = 1) :
    ∀ x ∈ processLeaf G coords spur marked leaf, deg G x ≤ 2 := by
  unfold processLeaf
  dsimp only
  split_ifs with h1 h2 h3
  · exact hm
  · exact hm
  · intro x hx
    rcases List.mem_append.mp hx with hx' | hx'
    · exact hm x hx'
    · refine walkSpur_dropLast_deg G marked _ [leaf] leaf ?_ rfl x hx'
      intro y hy
      simp at hy
  · intro x hx
    rcases List.mem_append.mp hx with hx' | hx'
    · exact hm x hx'
    · obtain ⟨ext, hext⟩ := walkSpur_extension G marked (G.nodes.length + 1) [leaf] leaf
      rw [hext] at hx' h3
      have hnil : ext = [] := by
        cases ext with
        | nil => rfl
        | cons a t => exact absurd (by simp) h3
      rw [hnil] at hx'
      have hxl : x = leaf := by simpa using hx'
      rw [hxl]
      omega

theorem nodesToRemove_deg_le (G : SGraph) (coords : Coords) (spur : ℚ) :
    ∀ x ∈ nodesToRemove G coords spur, deg G x ≤ 2 := by
  unfold nodesToRemove
  have hgen : ∀ ls : List Nat, (∀ l ∈ ls, deg G l = 1) →
      ∀ m : List Nat, (∀ x ∈ m, deg G x ≤ 2) →
      ∀ x ∈ ls.foldl (processLeaf G coords spur) m, deg G x ≤ 2 := by
    intro ls
    induction ls with
    | nil => intro _ m hm; simpa using hm
    | cons l t ih =>
      intro hls m hm
      rw [List.foldl_cons]
      exact ih (fun a ha => hls a (List.mem_cons_of_mem l ha))
        _ (processLeaf_deg_le G coords spur m l hm (hls l (List.mem_cons_self l t)))
  refine hgen _ ?_ [] (by simp)
  intro l hl
  exact of_decide_eq_true (List.mem_filter.mp hl).2

/-- Claim C4: pruning never increases the node count, every node the
pruning pass marks for removal has degree at most 2 in the pre-pruning
graph, and every junction (degree at least 3) present before pruning is
still present after pruning. -/
theorem c4_pruning_monotonicity (G : SGraph) (coords : Coords) (spur : ℚ) :
    (∀ n ∈ nodesToRemove G coords spur, deg G n ≤ 2) ∧
      (pruneGraph G coords spur).nodes.length ≤ G.nodes.length ∧
      (∀ n ∈ G.nodes, 3 ≤ deg G n → n ∈ (pruneGraph G coords spur).nodes) := by
  refine ⟨nodesToRemove_deg_le G coords spur, List.length_filter_le _ _, ?_⟩
  intro n hn hdeg
  show n ∈ G.nodes.filter _
  rw [List.mem_filter]
  refine ⟨hn, ?_⟩
  rw [decide_eq_true_eq]
  intro hmem
  have := nodesToRemove_deg_le G coords spur n hmem
  omega

theorem pathLen_C7_01 : pathLen coordsC7 [0, 1] = 1 / 5 := by
  simp only [pathLen]
  rw [show coordsC7 0 = ((0 : ℚ), (-3 / 10 : ℚ), (0 : ℚ)) from rfl,
    show coordsC7 1 = ((0 : ℚ), (-1 / 10 : ℚ), (0 : ℚ)) from rfl, dist3_vert]
  push_cast
  norm_num

theorem pathLen_C7_10 : pathLen coordsC7 [1, 0] = 1 / 5 := by
  simp only [pathLen]
  rw [show coordsC7 0 = ((0 : ℚ), (-3 / 10 : ℚ), (0 : ℚ)) from rfl,
    show coordsC7 1 = ((0 : ℚ), (-1 / 10 : ℚ), (0 : ℚ)) from rfl,
    dist3_vert_anti 0 0 (-1 / 10) (-3 / 10) (by norm_num)]
  push_cast
  norm_num

theorem avgY_C7_01 : avgY coordsC7 [0, 1] = -1 / 5 := by
  unfold avgY
  norm_num [List.sum_cons, show coordsC7 0 = ((0 : ℚ), (-3 / 10 : ℚ), (0 : ℚ)) from rfl,
    show coordsC7 1 = ((0 : ℚ), (-1 / 10 : ℚ), (0 : ℚ)) from rfl]

theorem avgY_C7_10 : avgY coordsC7 [1, 0] = -1 / 5 := by
  unfold avgY
  norm_num [List.sum_cons, show coordsC7 0 = ((0 : ℚ), (-3 / 10 : ℚ), (0 : ℚ)) from rfl,
    show coordsC7 1 = ((0 : ℚ), (-1 / 10 : ℚ), (0 : ℚ)) from rfl]

theorem processLeaf_C7_leaf0 : processLeaf k2G coordsC7 1 [] 0 = [0] := by
  have hwalk : walkSpur k2G [] (k2G.nodes.length + 1) [0] 0 = [0, 1] := by decide
  unfold processLeaf
  rw [if_neg (List.not_mem_nil 0)]
  dsimp only
  rw [hwalk, pathLen_C7_01, avgY_C7_01]
  rw [if_neg (by
    rintro (h | ⟨-, h, -⟩ | ⟨-, h⟩)
    · norm_num at h
    · norm_num at h
    · revert h; decide)]
  decide

theorem processLeaf_C7_leaf1 : processLeaf k2G coordsC7 1 [0] 1 = [0, 1] := by
  have hwalk : walkSpur k2G [0] (k2G.nodes.length + 1) [1] 1 = [1, 0] := by decide
  unfold processLeaf
  rw [if_neg (by decide)]
  dsimp only
  rw [hwalk, pathLen_C7_10, avgY_C7_10]
  rw [if_neg (by
    rintro (h | ⟨-, h, -⟩ | ⟨-, h⟩)
    · norm_num at h
    · norm_num at h
    · revert h; decide)]
  decide

theorem nodesToRemove_k2G : nodesToRemove k2G coordsC7 1 = [0, 1] := by
  unfold nodesToRemove
  rw [show k2G.nodes.filter (fun n => deg k2G n = 1) = [0, 1] from by decide]
  rw [List.foldl_cons]
  rw [processLeaf_C7_leaf0]
  rw [List.foldl_cons, List.foldl_nil]
  rw [processLeaf_C7_leaf1]

/-- Counterexample to C7 as stated: pruning the two-node graph with one
short edge empties it, and component selection on the emptied graph does
not produce a no-structure-detected report; it reaches Python's max on the
empty component list, an unrelated uncaught ValueError. -/
theorem c7_counterexample :
    nodesToRemove k2G coordsC7 1 = [0, 1] ∧
      (pruneGraph k2G coordsC7 1).nodes = [] ∧
      componentSelect (pruneGraph k2G coordsC7 1) true = SelOutcome.pyValueError ∧
      SelOutcome.pyValueError ≠ SelOutcome.noStructureReport := by
  have hnodes : (pruneGraph k2G coordsC7 1).nodes = [] := by
    show k2G.nodes.filter (fun n => n ∉ nodesToRemove k2G coordsC7 1) = []
    rw [nodesToRemove_k2G]
    decide
  exact ⟨nodesToRemove_k2G, hnodes, componentSelect_of_no_nodes _ true hnodes, by decide⟩

/-! Claim C3: the spur preservation criteria. -/

/-- Counterexample to C3 as stated: with the whole structure below the
plane y = 0, the walked spur [0, 1, 2] of the path graph lies in the upper
half of the structure's own y extent and is longer than L_min / 2, so the
claim's criteria preserve it; the code nevertheless removes it because its
sensitive-region test is mean y above the absolute plane y = 0, not the
upper half of the bounding volume. -/
theorem c3_counterexample :
    walkSpur pathG [] (pathG.nodes.length + 1) [0] 0 = [0, 1, 2] ∧
      specPreserve pathG coordsC3 1 [0, 1, 2] ∧
      processLeaf pathG coordsC3 1 [] 0 = [0, 1] := by
  refine ⟨by decide, ?_, processLeaf_C3_leaf0⟩
  refine Or.inr (Or.inl ⟨?_, ?_⟩)
  · unfold specSensitiveRegion
    rw [avgY_C3_012]
    norm_num [pathG, show coordsC3 0 = ((0 : ℚ), (-1 / 10 : ℚ), (0 : ℚ)) from rfl,
      show coordsC3 1 = ((0 : ℚ), (-1 / 2 : ℚ), (0 : ℚ)) from rfl,
      show coordsC3 2 = ((0 : ℚ), (-1 : ℚ), (0 : ℚ)) from rfl]
  · rw [pathLen_C3_012]
    push_cast
    norm_num

/-- Claim C3 (amended): for every unmarked leaf of degree 1 the walked
candidate path has at least two nodes, and it is preserved (the marked
list left unchanged) precisely when the walked path is longer than L_min,
or its mean y coordinate is above the absolute plane y = 0 and it is
longer than L_min / 2, or its far end has degree greater than 2; otherwise
all its nodes except the far end are appended to the marked list.
Compared to the claim as stated, the sensitive region is mean y above 0
rather than the upper half of the bounding volume, and the path judged is
the walk that stops early at already-marked nodes. -/
theorem c3_spur_criteria (G : SGraph) (coords : Coords) (spur : ℚ)
    (marked : List Nat) (leaf : Nat) (hWF : WF G) (hdeg : deg G leaf = 1)
    (hm : leaf ∉ marked) :
    1 < (walkSpur G marked (G.nodes.length + 1) [leaf] leaf).length ∧
      (processLeaf G coords spur marked leaf = marked ↔
        (pathLen coords (walkSpur G marked (G.nodes.length + 1) [leaf] leaf) > (spur : ℝ) ∨
          (0 < avgY coords (walkSpur G marked (G.nodes.length + 1) [leaf] leaf) ∧
            pathLen coords (walkSpur G marked (G.nodes.length + 1) [leaf] leaf) >
              (spur : ℝ) * 0.5) ∨
          2 < deg G ((walkSpur G marked (G.nodes.length + 1) [leaf] leaf).getLastD 0))) ∧
      (¬ (pathLen coords (walkSpur G marked (G.nodes.length + 1) [leaf] leaf) > (spur : ℝ) ∨
          (0 < avgY coords (walkSpur G marked (G.nodes.length + 1) [leaf] leaf) ∧
            pathLen coords (walkSpur G marked (G.nodes.length + 1) [leaf] leaf) >
              (spur : ℝ) * 0.5) ∨
          2 < deg G ((walkSpur G marked (G.nodes.length + 1) [leaf] leaf).getLastD 0)) →
        processLeaf G coords spur marked leaf =
          marked ++ (walkSpur G marked (G.nodes.length + 1) [leaf] leaf).dropLast) := by
  have hdeg' : (G.adj leaf).length = 1 := hdeg
  obtain ⟨x, hx⟩ : ∃ x, G.adj leaf = [x] := by
    cases hadj : G.adj leaf with
    | nil => rw [hadj] at hdeg'; simp at hdeg'
    | cons a t =>
      cases t with
      | nil => exact ⟨a, rfl⟩
      | cons b u => rw [hadj] at hdeg'; simp at hdeg'
  have hxne : x ≠ leaf := by
    intro h
    apply hWF.no_self leaf
    rw [hx, h]
    exact List.mem_singleton_self leaf
  set P := walkSpur G marked (G.nodes.length + 1) [leaf] leaf with hPdef
  have hstep : P = walkSpur G marked G.nodes.length ([leaf] ++ [x]) x := by
    rw [hPdef]
    simp only [walkSpur]
    rw [if_pos ⟨by omega, hm⟩]
    rw [show (G.adj leaf).filter (fun n => n ∉ [leaf]) = [x] from by rw [hx]; simp [hxne]]
  obtain ⟨ext, hext⟩ := walkSpur_extension G marked G.nodes.length ([leaf] ++ [x]) x
  have hlen : 1 < P.length := by
    rw [hstep, hext]
    simp
  have hPL : processLeaf G coords spur marked leaf =
      if pathLen coords P > (spur : ℝ) ∨
          (1 < P.length ∧ 0 < avgY coords P ∧ pathLen coords P > (spur : ℝ) * 0.5) ∨
          (1 < P.length ∧ 2 < deg G (P.getLastD 0)) then marked
      else marked ++ P.dropLast := by
    unfold processLeaf
    rw [if_neg hm]
    dsimp only
    rw [if_pos hlen]
  have hcequiv : (pathLen coords P > (spur : ℝ) ∨
      (1 < P.length ∧ 0 < avgY coords P ∧ pathLen coords P > (spur : ℝ) * 0.5) ∨
      (1 < P.length ∧ 2 < deg G (P.getLastD 0))) ↔
      (pathLen coords P > (spur : ℝ) ∨
        (0 < avgY coords P ∧ pathLen coords P > (spur : ℝ) * 0.5) ∨
        2 < deg G (P.getLastD 0)) := by
    constructor
    · rintro (h | ⟨-, h1, h2⟩ | ⟨-, h⟩)
      exacts [Or.inl h, Or.inr (Or.inl ⟨h1, h2⟩), Or.inr (Or.inr h)]
    · rintro (h | ⟨h1, h2⟩ | h)
      exacts [Or.inl h, Or.inr (Or.inl ⟨hlen, h1, h2⟩), Or.inr (Or.inr ⟨hlen, h⟩)]
  refine ⟨hlen, ?_, ?_⟩
  · rw [hPL]
    constructor
    · intro hres
      by_cases hc : pathLen coords P > (spur : ℝ) ∨
          (1 < P.length ∧ 0 < avgY coords P ∧ pathLen coords P > (spur : ℝ) * 0.5) ∨
          (1 < P.length ∧ 2 < deg G (P.getLastD 0))
      · exact hcequiv.mp hc
      · rw [if_neg hc] at hres
        exfalso
        have hlength : (marked ++ P.dropLast).length = marked.length := by rw [hres]
        rw [List.length_append, List.length_dropLast] at hlength
        omega
    · intro hc
      rw [if_pos (hcequiv.mpr hc)]
  · intro hnc
    rw [hPL, if_neg (fun hc => hnc (hcequiv.mp hc))]

/-- Witness for c3_spur_criteria on the concrete path graph: its leaf 0 is
unmarked, has degree 1, and the walked path indeed has two or more
nodes. -/
theorem c3_spur_criteria_witness :
    deg pathG 0 = 1 ∧ (0 : Nat) ∉ ([] : List Nat) ∧
      1 < (walkSpur pathG [] (pathG.nodes.length + 1) [0] 0).length :=
  ⟨by decide, by decide,
    (c3_spur_criteria pathG coordsC3 1 [] 0 pathG_WF (by decide) (by decide)).1⟩

/-- Witness for c4_pruning_monotonicity: node 0 is marked for removal on
the concrete path graph and indeed has degree at most 2; the junction 0 of
the concrete star graph survives pruning. -/
theorem c4_pruning_monotonicity_witness :
    (0 ∈ nodesToRemove pathG coordsC2 1 ∧ deg pathG 0 ≤ 2) ∧
      (0 ∈ starG.nodes ∧ 3 ≤ deg starG 0 ∧
        0 ∈ (pruneGraph starG (fun _ => (0, 0, 0)) 1).nodes) := by
  constructor
  · have hm : 0 ∈ nodesToRemove pathG coordsC2 1 := by
      rw [nodesToRemove_pathG]; decide
    exact ⟨hm, (c4_pruning_monotonicity pathG coordsC2 1).1 0 hm⟩
  · exact ⟨by decide, by decide,
      (c4_pruning_monotonicity starG (fun _ => (0, 0, 0)) 1).2.2 0 (by decide) (by decide)⟩

end VascRecon
